import Mathlib

/-
Verification of the workflow-orchestration core of the medical-agent backend.

The definitions below are a shallow embedding of
  backend/app/agents/orchestrator.py   (graph engine, router, classifier, handlers)
  backend/app/agents/state.py          (AgentState)
  backend/app/services/external_apis.py (external clients; every client wraps its
                                          body in try/except and returns a value)
Language-model calls and network calls are modelled by an explicit environment
record `Env`; a call that the Python code awaits and that may raise is modelled
as `Except String _`.  Python regular-expression passes in `_format_response`
are modelled by recursive scanners over `List Char` (fuel-based so that the
kernel can evaluate them); the scanners were cross-checked against the
behaviour of `re.sub` for the four patterns used by the source.
-/

namespace MedAgent

/- ### Basic character/string utilities (Python `str` operations) -/

/-- Python whitespace (the characters stripped by `str.strip()`). -/
def isPyWS (c : Char) : Bool :=
  c == ' ' || c == '\t' || c == '\n' || c == '\r' || c == '\x0b' || c == '\x0c'

/-- ASCII lowering, the fragment of Python `str.lower()` used by the classifier. -/
def lowerChar (c : Char) : Char :=
  if 'A' ≤ c ∧ c ≤ 'Z' then Char.ofNat (c.toNat + 32) else c

def lowerList (l : List Char) : List Char := l.map lowerChar

/-- Python `needle in hay` substring test. -/
def strIn (needle : List Char) : List Char → Bool
  | [] => needle.isEmpty
  | c :: t => needle.isPrefixOf (c :: t) || strIn needle t

/-- Python single-character `str.isupper()` restricted to ASCII. -/
def isPyUpper (c : Char) : Bool := 'A' ≤ c && c ≤ 'Z'

/-- Python `str.split()` (split on whitespace runs, dropping empty words). -/
def pyWordsF : Nat → List Char → List (List Char)
  | 0, _ => []
  | fuel + 1, l =>
    match l.dropWhile isPyWS with
    | [] => []
    | c :: t =>
      ((c :: t).takeWhile (fun d => !isPyWS d)) ::
        pyWordsF fuel ((c :: t).dropWhile (fun d => !isPyWS d))

def pyWords (l : List Char) : List (List Char) := pyWordsF l.length l

/- ### The response-normalization pipeline of `_format_response` -/

/-- Scanner for the closing `**` of `re.sub(r'\*\*(.*?)\*\*', ...)`:
given the characters after an opening `**`, returns the (minimal) group
and the rest after the closing `**`; `.` does not match a newline. -/
def findClose2 : List Char → Option (List Char × List Char)
  | [] => none
  | c :: rest =>
    if c = '*' ∧ rest.head? = some '*' then some ([], rest.tail)
    else if c = '\n' then none
    else (findClose2 rest).map (fun p => (c :: p.1, p.2))

/-- Pass 1: `re.sub(r'\*\*(.*?)\*\*', r'\1', text)` (fuel-indexed scanner). -/
def sub1F : Nat → List Char → List Char
  | 0, l => l
  | _ + 1, [] => []
  | fuel + 1, c :: rest =>
    if c = '*' ∧ rest.head? = some '*' then
      match findClose2 rest.tail with
      | some (x, r) => x ++ sub1F fuel r
      | none => '*' :: sub1F fuel rest
    else c :: sub1F fuel rest

def sub1 (l : List Char) : List Char := sub1F l.length l

/-- Scanner for `[^*]+\*` : collects the characters up to the next `*`. -/
def takeToStar : List Char → Option (List Char × List Char)
  | [] => none
  | c :: rest =>
    if c = '*' then some ([], rest)
    else (takeToStar rest).map (fun p => (c :: p.1, p.2))

/-- Pass 2: `re.sub(r'(?<!\*)\*(?!\*)([^\*]+)\*(?!\*)', r'\1', text)`.
The extra `Char` argument is the character preceding the scan position
(for the negative lookbehind); at the start of the string it is `nulChar`. -/
def sub2F : Nat → Char → List Char → List Char
  | 0, _, l => l
  | _ + 1, _, [] => []
  | fuel + 1, prev, c :: rest =>
    if c = '*' ∧ prev ≠ '*' then
      if rest.head? = some '*' then '*' :: sub2F fuel '*' rest
      else
        match takeToStar rest with
        | some (x, r) =>
          if r.head? = some '*' then '*' :: sub2F fuel '*' rest
          else x ++ sub2F fuel '*' r
        | none => '*' :: sub2F fuel '*' rest
    else c :: sub2F fuel c rest

def nulChar : Char := '\x00'

def sub2 (prev : Char) (l : List Char) : List Char := sub2F l.length prev l

/-- Passes 3 and 4: `re.sub(r'\n{3,}', '\n\n', ·)` is `collapse '\n' 2`,
and `re.sub(r'  +', ' ', ·)` is `collapse ' ' 1`: a maximal run of the
character `d` of length at least `k+1` is replaced by `k` copies. -/
def collapseF (d : Char) (k : Nat) : Nat → List Char → List Char
  | 0, l => l
  | _ + 1, [] => []
  | fuel + 1, c :: rest =>
    List.replicate
        (if c = d ∧ k + 1 ≤ (rest.takeWhile (fun b => b == c)).length + 1 then k
         else (rest.takeWhile (fun b => b == c)).length + 1) c ++
      collapseF d k fuel (rest.dropWhile (fun b => b == c))

def collapse (d : Char) (k : Nat) (l : List Char) : List Char := collapseF d k l.length l

/-- Python `str.strip()`. -/
def pyStrip (l : List Char) : List Char :=
  ((l.dropWhile isPyWS).reverse.dropWhile isPyWS).reverse

/-- `_format_response` on character lists: the four regex passes then `strip`. -/
def formatResponseList (l : List Char) : List Char :=
  pyStrip (collapse ' ' 1 (collapse '\n' 2 (sub2 nulChar (sub1 l))))

/-- `MedicalAgentOrchestrator._format_response`. -/
def formatResponse (s : String) : String := String.mk (formatResponseList s.toList)

/- ### Match predicates for the two star-removal passes -/

/-- A position where pass 1's pattern matches (`**`, a newline-free gap, `**`). -/
inductive HasM1 : List Char → Prop
  | here (x v : List Char) (hx : '\n' ∉ x) : HasM1 ('*' :: '*' :: (x ++ '*' :: '*' :: v))
  | there (c : Char) {l : List Char} (h : HasM1 l) : HasM1 (c :: l)

/-- A position where pass 2's pattern matches, given the previous character `p`:
a `*` with non-star lookbehind and lookahead, a nonempty star-free body,
and a closing `*` with non-star lookahead. -/
inductive HasM2 : Char → List Char → Prop
  | here (p : Char) (x v : List Char) (hp : p ≠ '*') (hx : x ≠ []) (hs : '*' ∉ x)
      (hv : v.head? ≠ some '*') : HasM2 p ('*' :: (x ++ '*' :: v))
  | there (p c : Char) {l : List Char} (h : HasM2 c l) : HasM2 p (c :: l)

/-- No occurrence of two adjacent stars. -/
def NoSS (l : List Char) : Prop := ∀ a b : List Char, l ≠ a ++ '*' :: '*' :: b

/-- A contiguous run of `K` copies of `d` occurs somewhere in `l`. -/
def InfixRun (d : Char) (K : Nat) (l : List Char) : Prop :=
  ∃ a b, l = a ++ (List.replicate K d ++ b)

/- ### External services (`external_apis.py`) and the environment -/

/-- Outcome of one awaited network operation, before the client's try/except. -/
inductive ApiOutcome
  | ok (payload : String)
  | exn (msg : String)
  | timeout
deriving DecidableEq

/-- Value returned by a client method: every client in `external_apis.py`
wraps its whole body in try/except and returns a dict either way. -/
inductive ApiVal
  | success (payload : String)
  | failure (msg : String)
deriving DecidableEq

/-- The try/except wrapper of each client: a raised exception becomes an
error dict `\x7b"error": str(e)\x7d`; an `httpx` timeout raises and is
caught the same way. -/
def clientResult : ApiOutcome → ApiVal
  | .ok p => .success p
  | .exn m => .failure m
  | .timeout => .failure ("timed out")

def ApiVal.payload : ApiVal → String
  | .success p => p
  | .failure m => m

/-- Observable external calls made during a run. -/
inductive ExtCall
  | llm (name : String)
  | apiStart (name : String)
  | apiFin (name : String)
deriving DecidableEq

/-- One uploaded report in the caller context. -/
structure Report where
  extracted_text : String
  structured_data : String
  rtype : String
  file_name : String
deriving DecidableEq

structure UserContext where
  uploaded_reports : List Report
  allergies : List String
  conditions : List String
  medications : List String
  recent_symptoms : List String
  health_goals : List String
deriving DecidableEq

def emptyContext : UserContext := ⟨[], [], [], [], [], []⟩

/-- Entities extracted by the classifier (the dict keys the handlers read). -/
structure Entities where
  medication : Option String
  condition : Option String
  symptoms : List String
deriving DecidableEq

def noEntities : Entities := ⟨none, none, []⟩

/-- `AgentState` of `state.py`, threaded through every node. -/
structure AgentState where
  user_message : String
  user_id : Nat
  conversation_id : Option Nat
  chat_history : List (String × String)
  user_context : UserContext
  intent : Option String
  extracted_entities : Entities
  agent_path : List String
  agent_responses : List String
  final_response : String
  data_to_save : List (String × String)
  actions : List String
  external_data : List (String × String)
  metadata : List (String × String)
deriving DecidableEq

/-- The opaque capabilities a run consumes: language-model calls (which may
raise) and the external data services, plus whether an asyncio event loop is
already running when a handler executes. -/
structure Env where
  classifyLLM : String → Except String (String × Entities)
  symptomLLM : String → Except String String
  parseSymptoms : String → Option String
  medLLM : String → List (String × ApiVal) → Except String String
  reportLLM : Report → Except String String
  diagnosisLLM : String → List (String × ApiVal) → Except String String
  lifestyleLLM : String → Except String String
  generalLLM : String → Except String String
  api : String → ApiOutcome
  loopRunning : Bool

/- ### Nodes of the graph (`orchestrator.py`) -/

/-- The structural shortcut condition of `_classify_intent`. -/
def classifyShortcut (s : AgentState) : Bool :=
  (strIn ("Report ID:").toList s.user_message.toList
      || strIn ("report id").toList (lowerList s.user_message.toList))
    || (!s.user_context.uploaded_reports.isEmpty
      && (strIn ("analyze").toList (lowerList s.user_message.toList)
        || strIn ("report").toList (lowerList s.user_message.toList)))

/-- `_classify_intent`: deterministic shortcut, else the model-assisted path. -/
def classifyIntent (env : Env) (s : AgentState) :
    Except String (AgentState × List ExtCall) :=
  if classifyShortcut s then
    .ok ({ s with intent := some ("report_analysis"), extracted_entities := noEntities,
                  agent_path := [("intent_classifier" : String)] }, [])
  else
    match env.classifyLLM s.user_message with
    | .error e => .error e
    | .ok (intentStr, ents) =>
      .ok ({ s with intent := some intentStr, extracted_entities := ents,
                    agent_path := [("intent_classifier" : String)] },
           [ExtCall.llm ("classify_intent")])

/-- `_retrieve_context`: pass-through, records the node on the path. -/
def retrieveContext (s : AgentState) : AgentState :=
  { s with agent_path := s.agent_path ++ [("context_retriever" : String)] }

/-- `_route_by_intent`. -/
def routeByIntent (intent : String) : String :=
  if intent = "symptom_analysis" ∨ intent = "health_tracking" then "symptom_analysis"
  else if intent = "medication_query" ∨ intent = "medication_interaction" then intent
  else if intent = "emergency" then "emergency"
  else if intent = "report_analysis" then "report_analysis"
  else if intent = "diagnosis_assistance" then "diagnosis_assistance"
  else if intent = "lifestyle_advice" then "lifestyle_advice"
  else "default"

/-- The conditional-edge table passed to `add_conditional_edges` in
`_build_graph` (a dict lookup on the routing key). -/
def edgeTarget (k : String) : Option String :=
  if k = "symptom_analysis" then some ("symptom_agent")
  else if k = "medication_query" then some ("medication_agent")
  else if k = "medication_interaction" then some ("medication_agent")
  else if k = "report_analysis" then some ("report_agent")
  else if k = "diagnosis_assistance" then some ("diagnosis_agent")
  else if k = "lifestyle_advice" then some ("lifestyle_agent")
  else if k = "emergency" then some ("emergency_agent")
  else if k = "default" then some ("general_agent")
  else none

/-- Router: `_route_by_intent` composed with the conditional-edge table. -/
def routeHandler (intent : String) : Option String := edgeTarget (routeByIntent intent)

/-- `_symptom_agent`. -/
def setKey (m : List (String × String)) (k v : String) : List (String × String) :=
  (m.filter (fun p => p.1 != k)) ++ [(k, v)]

def symptomAgent (env : Env) (s : AgentState) :
    Except String (AgentState × List ExtCall) :=
  match env.symptomLLM s.user_message with
  | .error e => .error e
  | .ok content =>
    .ok ({ s with agent_responses := s.agent_responses ++ [content],
                  agent_path := s.agent_path ++ [("symptom_agent" : String)],
                  data_to_save :=
                    match env.parseSymptoms content with
                    | some blob => setKey s.data_to_save ("symptoms") blob
                    | none => s.data_to_save },
         [ExtCall.llm ("symptom_agent")])

/-- Candidate medication names: capitalized words longer than 3 characters. -/
def potentialMeds (msg : String) : List String :=
  ((pyWords msg.toList).filter
      (fun w => (match w.head? with | some c => isPyUpper c | none => false)
        && decide (3 < w.length))).map (fun w => String.mk w)

/-- The medication-query selection of `_medication_agent`: the `medication`
entity, else nothing when only a `condition` entity exists (the code binds
`condition_query` and never uses it), else the capitalized-word heuristic. -/
def medicationQueryOf (s : AgentState) : Option String :=
  match s.extracted_entities.medication with
  | some m => some m
  | none =>
    match s.extracted_entities.condition with
    | some _ => none
    | none => (potentialMeds s.user_message).head?

/-- `analyze_medication_safety`: awaits its three sub-clients one after the
other; every branch returns a dict (the whole body is inside try/except). -/
def analyzeMedicationSafety (env : Env) : ApiVal × List ExtCall :=
  (ApiVal.success (String.intercalate ("|")
      [(clientResult (env.api ("search_drug_info"))).payload,
       (clientResult (env.api ("search_rxnorm"))).payload,
       (clientResult (env.api ("check_drug_interactions"))).payload]),
   [ExtCall.apiStart ("search_drug_info"), ExtCall.apiFin ("search_drug_info"),
    ExtCall.apiStart ("search_rxnorm"), ExtCall.apiFin ("search_rxnorm"),
    ExtCall.apiStart ("check_drug_interactions"), ExtCall.apiFin ("check_drug_interactions")])

/-- The three `loop.run_until_complete(...)` calls of `_medication_agent`,
one awaited to completion after the other, and the api-data map they build. -/
def medicationFetch (env : Env) : List (String × ApiVal) × List ExtCall :=
  ([(("fda_info" : String), clientResult (env.api ("search_drug_info"))),
    (("rxnorm_info" : String), clientResult (env.api ("search_rxnorm"))),
    (("safety_analysis" : String), (analyzeMedicationSafety env).1)],
   [ExtCall.apiStart ("search_drug_info"), ExtCall.apiFin ("search_drug_info"),
    ExtCall.apiStart ("search_rxnorm"), ExtCall.apiFin ("search_rxnorm"),
    ExtCall.apiStart ("analyze_medication_safety")] ++ (analyzeMedicationSafety env).2
      ++ [ExtCall.apiFin ("analyze_medication_safety")])

/-- The fetch branch of `_medication_agent`: nothing without a query, and the
`pass` branch when `loop.is_running()` leaves `api_data` empty. -/
def medicationApiData (env : Env) (q : Option String) :
    List (String × ApiVal) × List ExtCall :=
  match q with
  | none => ([], [])
  | some _ => if env.loopRunning then ([], []) else medicationFetch env

/-- `_medication_agent`. -/
def medicationAgent (env : Env) (s : AgentState) :
    Except String (AgentState × List ExtCall) :=
  match env.medLLM s.user_message (medicationApiData env (medicationQueryOf s)).1 with
  | .error e => .error e
  | .ok content =>
    .ok ({ s with agent_responses := s.agent_responses ++ [content],
                  agent_path := s.agent_path ++ [("medication_agent" : String)] },
         (medicationApiData env (medicationQueryOf s)).2 ++ [ExtCall.llm ("medication_agent")])

/-- Symptom list assembled by `_diagnosis_agent` from context and entities. -/
def diagnosisSymptoms (s : AgentState) : List String :=
  s.user_context.recent_symptoms ++ s.extracted_entities.symptoms

def icdCallEvents : List String → List ExtCall
  | [] => []
  | _ :: rest =>
    ExtCall.apiStart ("get_icd10_code") :: ExtCall.apiFin ("get_icd10_code") ::
      icdCallEvents rest

/-- The literature and ICD-10 fetches of `_diagnosis_agent`, sequential. -/
def diagnosisFetch (env : Env) (syms : List String) :
    List (String × ApiVal) × List ExtCall :=
  ([(("literature" : String), clientResult (env.api ("search_medical_literature"))),
    (("icd_codes" : String), clientResult (env.api ("get_icd10_code")))],
   [ExtCall.apiStart ("search_medical_literature"),
    ExtCall.apiFin ("search_medical_literature")] ++ icdCallEvents (syms.take 3))

/-- The fetch branch of `_diagnosis_agent`: guarded by `not loop.is_running()`. -/
def diagnosisApiData (env : Env) (syms : List String) :
    List (String × ApiVal) × List ExtCall :=
  if syms = [] then ([], [])
  else if env.loopRunning then ([], [])
  else diagnosisFetch env syms

/-- `_diagnosis_agent`. -/
def diagnosisAgent (env : Env) (s : AgentState) :
    Except String (AgentState × List ExtCall) :=
  match env.diagnosisLLM s.user_message (diagnosisApiData env (diagnosisSymptoms s)).1 with
  | .error e => .error e
  | .ok content =>
    .ok ({ s with agent_responses := s.agent_responses ++ [content],
                  agent_path := s.agent_path ++ [("diagnosis_agent" : String)] },
         (diagnosisApiData env (diagnosisSymptoms s)).2 ++ [ExtCall.llm ("diagnosis_agent")])

/-- The fixed help message `_report_agent` appends when no report is uploaded. -/
def reportHelpMsg : String :=
  "I can help analyze your medical reports. Please upload the report file, and I\x27ll extract key findings and explain them in simple terms."

def reportLoop (env : Env) (reports : List Report) (s : AgentState) (calls : List ExtCall) :
    Except String (AgentState × List ExtCall) :=
  match reports with
  | [] => .ok (s, calls)
  | r :: rest =>
    match env.reportLLM r with
    | .error e => .error e
    | .ok content =>
      reportLoop env rest { s with agent_responses := s.agent_responses ++ [content] }
        (calls ++ [ExtCall.llm ("report_agent")])

/-- `_report_agent`: one fragment per uploaded report, or one fixed message. -/
def reportAgent (env : Env) (s : AgentState) :
    Except String (AgentState × List ExtCall) :=
  if s.user_context.uploaded_reports = [] then
    .ok ({ s with agent_responses := s.agent_responses ++ [reportHelpMsg],
                  agent_path := s.agent_path ++ [("report_agent" : String)] }, [])
  else
    match reportLoop env s.user_context.uploaded_reports s [] with
    | .error e => .error e
    | .ok (s1, calls) =>
      .ok ({ s1 with agent_path := s1.agent_path ++ [("report_agent" : String)] }, calls)

/-- `_lifestyle_agent`. -/
def lifestyleAgent (env : Env) (s : AgentState) :
    Except String (AgentState × List ExtCall) :=
  match env.lifestyleLLM s.user_message with
  | .error e => .error e
  | .ok content =>
    .ok ({ s with agent_responses := s.agent_responses ++ [content],
                  agent_path := s.agent_path ++ [("lifestyle_agent" : String)] },
         [ExtCall.llm ("lifestyle_agent")])

/-- The fixed safety-directive fragment of `_emergency_agent` (verbatim,
including the leading and trailing newline of the triple-quoted literal). -/
def emergencyText : String :=
  "\n🚨 EMERGENCY DETECTED 🚨\n\nIf you are experiencing a medical emergency, please:\n1. CALL 911 (or your local emergency number) IMMEDIATELY\n2. Do not wait for online medical advice\n3. If someone is with you, have them call while you stay with the patient\n\nCommon emergencies that need immediate care:\n- Chest pain or pressure\n- Difficulty breathing\n- Severe bleeding\n- Loss of consciousness\n- Stroke symptoms (facial drooping, arm weakness, speech difficulty)\n- Severe allergic reaction\n- Severe burns\n- Severe head injury\n\nIf this is not an emergency, please describe your symptoms and I can help assess the situation.\n"

/-- `_emergency_agent`: pure, deterministic, no external calls by construction. -/
def emergencyAgent (s : AgentState) : AgentState :=
  { s with agent_responses := s.agent_responses ++ [emergencyText],
           agent_path := s.agent_path ++ [("emergency_agent" : String)] }

/-- `_general_agent`. -/
def generalAgent (env : Env) (s : AgentState) :
    Except String (AgentState × List ExtCall) :=
  match env.generalLLM s.user_message with
  | .error e => .error e
  | .ok content =>
    .ok ({ s with agent_responses := s.agent_responses ++ [content],
                  agent_path := s.agent_path ++ [("general_agent" : String)] },
         [ExtCall.llm ("general_agent")])

/-- Dispatch to the handler node selected by the conditional edge. -/
def dispatch (env : Env) (h : String) (s : AgentState) :
    Except String (AgentState × List ExtCall) :=
  if h = "symptom_agent" then symptomAgent env s
  else if h = "medication_agent" then medicationAgent env s
  else if h = "report_agent" then reportAgent env s
  else if h = "diagnosis_agent" then diagnosisAgent env s
  else if h = "lifestyle_agent" then lifestyleAgent env s
  else if h = "emergency_agent" then .ok (emergencyAgent s, [])
  else if h = "general_agent" then generalAgent env s
  else .error ("unknown node")

/-- `_data_logger`: pass-through convergence node. -/
def dataLogger (s : AgentState) : AgentState :=
  { s with agent_path := s.agent_path ++ [("data_logger" : String)] }

/-- `_response_generator`: one fragment verbatim, several joined by a blank
line, then `_format_response`; sets `final_response`. -/
def responseGenerator (s : AgentState) : AgentState :=
  { s with
    final_response :=
      formatResponse
        (if s.agent_responses.length = 1 then s.agent_responses.headD ("")
         else String.intercalate ("\n\n") s.agent_responses),
    agent_path := s.agent_path ++ [("response_generator" : String)] }

/-- Result of one graph invocation: final state, the external calls made, and
the nodes executed in order. -/
structure RunOut where
  state : AgentState
  calls : List ExtCall
  nodesExecuted : List String
deriving DecidableEq

/-- `graph.ainvoke`: the fixed topology of `_build_graph`, executed in graph
order.  There is no try/except around any node: a raising node aborts the
whole invocation (and `process_message` does not catch either). -/
def runGraph (env : Env) (s0 : AgentState) : Except String RunOut :=
  match classifyIntent env s0 with
  | .error e => .error e
  | .ok (s1, c1) =>
    match edgeTarget (routeByIntent ((retrieveContext s1).intent.getD (""))) with
    | none => .error ("no edge")
    | some h =>
      match dispatch env h (retrieveContext s1) with
      | .error e => .error e
      | .ok (s3, c3) =>
        .ok ⟨responseGenerator (dataLogger s3), c1 ++ c3,
             [("classify_intent" : String), ("retrieve_context"), h,
              ("data_logger"), ("response_generator")]⟩

/-- The initial `AgentState` built by `process_message`. -/
def initialState (msg : String) (uid : Nat) (cid : Option Nat) (ctx : UserContext)
    (hist : List (String × String)) : AgentState :=
  ⟨msg, uid, cid, hist, ctx, none, noEntities, [], [], "", [], [], [], []⟩

structure ProcessResult where
  response : String
  intent : Option String
  data_to_save : List (String × String)
  agent_path : List String
  metadata : List (String × String)
deriving DecidableEq

/-- `process_message`: builds the initial state and awaits `graph.ainvoke`.
Because the graph is awaited from inside a coroutine, the asyncio event loop
is running for the whole invocation, so `asyncio.get_event_loop().is_running()`
observed by a handler is true: the run executes with `loopRunning := true`. -/
def processMessage (env : Env) (msg : String) (uid : Nat) (cid : Option Nat)
    (ctx : UserContext) (hist : List (String × String)) :
    Except String (ProcessResult × List ExtCall) :=
  match runGraph { env with loopRunning := true } (initialState msg uid cid ctx hist) with
  | .error e => .error e
  | .ok out =>
    .ok (⟨out.state.final_response, out.state.intent, out.state.data_to_save,
          out.state.agent_path, out.state.metadata⟩, out.calls)

/-- The call-event sequence of the medication handler's fetch branch
(every environment produces this same sequence). -/
def medTraceLiteral : List ExtCall :=
  [ExtCall.apiStart ("search_drug_info"), ExtCall.apiFin ("search_drug_info"),
   ExtCall.apiStart ("search_rxnorm"), ExtCall.apiFin ("search_rxnorm"),
   ExtCall.apiStart ("analyze_medication_safety"),
   ExtCall.apiStart ("search_drug_info"), ExtCall.apiFin ("search_drug_info"),
   ExtCall.apiStart ("search_rxnorm"), ExtCall.apiFin ("search_rxnorm"),
   ExtCall.apiStart ("check_drug_interactions"), ExtCall.apiFin ("check_drug_interactions"),
   ExtCall.apiFin ("analyze_medication_safety")]

/- ### Concrete environments and states used by the witnesses -/

def envBase : Env :=
  ⟨fun _ => Except.ok (("general_medical_query" : String), noEntities),
   fun _ => Except.ok ("ok"), fun _ => none, fun _ _ => Except.ok ("ok"),
   fun _ => Except.ok ("ok"), fun _ _ => Except.ok ("ok"), fun _ => Except.ok ("ok"),
   fun _ => Except.ok ("ok"), fun _ => ApiOutcome.exn ("down"), false⟩

/-- An environment in which the medication handler's language-model call
raises, after the classifier routes to the medication handler. -/
def envHandlerFail : Env :=
  { envBase with
    classifyLLM := fun _ => Except.ok (("medication_query" : String), noEntities),
    medLLM := fun _ _ => Except.error ("llm boom") }

/-- An environment whose classifier yields the emergency intent. -/
def envEmergency : Env :=
  { envBase with classifyLLM := fun _ => Except.ok (("emergency" : String), noEntities) }

/-- An environment observed with an already-running event loop. -/
def envLoopOn : Env := { envBase with loopRunning := true }

def stBase : AgentState := initialState ("hello") 1 none emptyContext []

def stReportRef : AgentState := initialState ("Report ID: 3") 1 none emptyContext []

def stEmergency : AgentState := initialState ("chest pain and cannot breathe") 1 none emptyContext []

/- ### Helper lemmas about the nodes -/

theorem classifyIntent_ok_inv {env : Env} {s s1 : AgentState} {c1 : List ExtCall}
    (h : classifyIntent env s = Except.ok (s1, c1)) :
    s1.agent_path = [("intent_classifier" : String)]
      ∧ s1.final_response = s.final_response
      ∧ s1.agent_responses = s.agent_responses
      ∧ (∀ n : String, ExtCall.apiStart n ∉ c1) := by
  unfold classifyIntent at h
  split at h
  · rw [Except.ok.injEq, Prod.mk.injEq] at h
    refine ⟨?_, ?_, ?_, ?_⟩ <;> simp [← h.1, ← h.2]
  · cases hc : env.classifyLLM s.user_message with
    | error e => rw [hc] at h; exact absurd h (by simp)
    | ok v =>
      rw [hc] at h
      rw [Except.ok.injEq, Prod.mk.injEq] at h
      refine ⟨?_, ?_, ?_, ?_⟩ <;> simp [← h.1, ← h.2]

theorem reportLoop_ok_inv {env : Env} {reports : List Report} {s s1 : AgentState}
    {acc calls : List ExtCall}
    (h : reportLoop env reports s acc = Except.ok (s1, calls)) :
    s1.agent_path = s.agent_path ∧ s1.final_response = s.final_response
      ∧ (∀ e, e ∈ calls → e ∈ acc ∨ e = ExtCall.llm ("report_agent")) := by
  induction reports generalizing s acc with
  | nil =>
    unfold reportLoop at h
    rw [Except.ok.injEq, Prod.mk.injEq] at h
    exact ⟨by rw [← h.1], by rw [← h.1], fun e he => Or.inl (h.2 ▸ he)⟩
  | cons r rest ih =>
    unfold reportLoop at h
    cases hc : env.reportLLM r with
    | error e => rw [hc] at h; exact absurd h (by simp)
    | ok content =>
      rw [hc] at h
      obtain ⟨h1, h2, h3⟩ := ih h
      refine ⟨by simpa using h1, by simpa using h2, fun e he => ?_⟩
      rcases h3 e he with hmem | hval
      · rcases List.mem_append.mp hmem with hmem | hmem
        · exact Or.inl hmem
        · simp only [List.mem_singleton] at hmem
          exact Or.inr hmem
      · exact Or.inr hval

theorem dispatch_ok_inv {env : Env} {h : String} {s s1 : AgentState} {c : List ExtCall}
    (hd : dispatch env h s = Except.ok (s1, c)) :
    (∃ nm : String, s1.agent_path = s.agent_path ++ [nm])
      ∧ s1.final_response = s.final_response := by
  unfold dispatch at hd
  split_ifs at hd
  · unfold symptomAgent at hd
    cases hc : env.symptomLLM s.user_message with
    | error e => rw [hc] at hd; exact absurd hd (by simp)
    | ok content =>
      rw [hc] at hd
      rw [Except.ok.injEq, Prod.mk.injEq] at hd
      obtain ⟨h1, h2⟩ := hd
      subst h1
      exact ⟨⟨_, rfl⟩, rfl⟩
  · unfold medicationAgent at hd
    cases hc : env.medLLM s.user_message (medicationApiData env (medicationQueryOf s)).1 with
    | error e => rw [hc] at hd; exact absurd hd (by simp)
    | ok content =>
      rw [hc] at hd
      rw [Except.ok.injEq, Prod.mk.injEq] at hd
      obtain ⟨h1, h2⟩ := hd
      subst h1
      exact ⟨⟨_, rfl⟩, rfl⟩
  · unfold reportAgent at hd
    split_ifs at hd
    · rw [Except.ok.injEq, Prod.mk.injEq] at hd
      obtain ⟨h1, h2⟩ := hd
      subst h1
      exact ⟨⟨_, rfl⟩, rfl⟩
    · cases hl : reportLoop env s.user_context.uploaded_reports s [] with
      | error e => rw [hl] at hd; exact absurd hd (by simp)
      | ok p =>
        obtain ⟨ps, pc⟩ := p
        rw [hl] at hd
        obtain ⟨hp1, hp2, _⟩ := reportLoop_ok_inv hl
        rw [Except.ok.injEq, Prod.mk.injEq] at hd
        obtain ⟨h1, h2⟩ := hd
        subst h1
        exact ⟨⟨_, by rw [← hp1]⟩, by rw [← hp2]⟩
  · unfold diagnosisAgent at hd
    cases hc : env.diagnosisLLM s.user_message (diagnosisApiData env (diagnosisSymptoms s)).1 with
    | error e => rw [hc] at hd; exact absurd hd (by simp)
    | ok content =>
      rw [hc] at hd
      rw [Except.ok.injEq, Prod.mk.injEq] at hd
      obtain ⟨h1, h2⟩ := hd
      subst h1
      exact ⟨⟨_, rfl⟩, rfl⟩
  · unfold lifestyleAgent at hd
    cases hc : env.lifestyleLLM s.user_message with
    | error e => rw [hc] at hd; exact absurd hd (by simp)
    | ok content =>
      rw [hc] at hd
      rw [Except.ok.injEq, Prod.mk.injEq] at hd
      obtain ⟨h1, h2⟩ := hd
      subst h1
      exact ⟨⟨_, rfl⟩, rfl⟩
  · rw [Except.ok.injEq, Prod.mk.injEq] at hd
    obtain ⟨h1, h2⟩ := hd
    subst h1
    exact ⟨⟨_, rfl⟩, rfl⟩
  · unfold generalAgent at hd
    cases hc : env.generalLLM s.user_message with
    | error e => rw [hc] at hd; exact absurd hd (by simp)
    | ok content =>
      rw [hc] at hd
      rw [Except.ok.injEq, Prod.mk.injEq] at hd
      obtain ⟨h1, h2⟩ := hd
      subst h1
      exact ⟨⟨_, rfl⟩, rfl⟩

theorem dispatch_ok_no_apiStart {env : Env} {h : String} {s s1 : AgentState}
    {c : List ExtCall} (hloop : env.loopRunning = true)
    (hd : dispatch env h s = Except.ok (s1, c)) :
    ∀ n : String, ExtCall.apiStart n ∉ c := by
  unfold dispatch at hd
  split_ifs at hd
  · unfold symptomAgent at hd
    cases hc : env.symptomLLM s.user_message with
    | error e => rw [hc] at hd; exact absurd hd (by simp)
    | ok content =>
      rw [hc] at hd
      rw [Except.ok.injEq, Prod.mk.injEq] at hd
      intro n
      simp [← hd.2]
  · unfold medicationAgent at hd
    cases hc : env.medLLM s.user_message (medicationApiData env (medicationQueryOf s)).1 with
    | error e => rw [hc] at hd; exact absurd hd (by simp)
    | ok content =>
      rw [hc] at hd
      rw [Except.ok.injEq, Prod.mk.injEq] at hd
      intro n
      rw [← hd.2]
      cases hq : medicationQueryOf s <;> simp [medicationApiData, hq, hloop]
  · unfold reportAgent at hd
    split_ifs at hd
    · rw [Except.ok.injEq, Prod.mk.injEq] at hd
      intro n
      simp [← hd.2]
    · cases hl : reportLoop env s.user_context.uploaded_reports s [] with
      | error e => rw [hl] at hd; exact absurd hd (by simp)
      | ok p =>
        obtain ⟨ps, pc⟩ := p
        rw [hl] at hd
        obtain ⟨_, _, hcalls⟩ := reportLoop_ok_inv hl
        rw [Except.ok.injEq, Prod.mk.injEq] at hd
        intro n hn
        rw [← hd.2] at hn
        rcases hcalls _ hn with hmem | hval
        · exact absurd hmem (by simp)
        · exact absurd hval (by simp)
  · unfold diagnosisAgent at hd
    cases hc : env.diagnosisLLM s.user_message (diagnosisApiData env (diagnosisSymptoms s)).1 with
    | error e => rw [hc] at hd; exact absurd hd (by simp)
    | ok content =>
      rw [hc] at hd
      rw [Except.ok.injEq, Prod.mk.injEq] at hd
      intro n
      rw [← hd.2]
      by_cases hs : diagnosisSymptoms s = [] <;> simp [diagnosisApiData, hs, hloop]
  · unfold lifestyleAgent at hd
    cases hc : env.lifestyleLLM s.user_message with
    | error e => rw [hc] at hd; exact absurd hd (by simp)
    | ok content =>
      rw [hc] at hd
      rw [Except.ok.injEq, Prod.mk.injEq] at hd
      intro n
      simp [← hd.2]
  · rw [Except.ok.injEq, Prod.mk.injEq] at hd
    intro n
    simp [← hd.2]
  · unfold generalAgent at hd
    cases hc : env.generalLLM s.user_message with
    | error e => rw [hc] at hd; exact absurd hd (by simp)
    | ok content =>
      rw [hc] at hd
      rw [Except.ok.injEq, Prod.mk.injEq] at hd
      intro n
      simp [← hd.2]

/- ### The claims about routing, classification and the external-call pattern -/

/-- Claim C5: the router is a total function from intent strings to handler
names: every mapped intent goes to its owner (with synonym folding of
`medication_query`/`medication_interaction` to the medication handler and
`health_tracking` to the symptom handler), and every other string, including
the absent intent (empty string), goes to the default handler; it never
fails to produce a handler. -/
theorem claim_C5 (i : String) :
    (∃ h, routeHandler i = some h)
      ∧ ((i = "symptom_analysis" ∨ i = "health_tracking") →
          routeHandler i = some ("symptom_agent"))
      ∧ ((i = "medication_query" ∨ i = "medication_interaction") →
          routeHandler i = some ("medication_agent"))
      ∧ (i = "report_analysis" → routeHandler i = some ("report_agent"))
      ∧ (i = "diagnosis_assistance" → routeHandler i = some ("diagnosis_agent"))
      ∧ (i = "lifestyle_advice" → routeHandler i = some ("lifestyle_agent"))
      ∧ (i = "emergency" → routeHandler i = some ("emergency_agent"))
      ∧ (i ∉ ([("symptom_analysis" : String), ("health_tracking"), ("medication_query"),
              ("medication_interaction"), ("report_analysis"), ("diagnosis_assistance"),
              ("lifestyle_advice"), ("emergency")] : List String) →
          routeHandler i = some ("general_agent")) := by
  have hdef : ∀ j : String,
      j ∉ ([("symptom_analysis" : String), ("health_tracking"), ("medication_query"),
            ("medication_interaction"), ("report_analysis"), ("diagnosis_assistance"),
            ("lifestyle_advice"), ("emergency")] : List String) →
      routeHandler j = some ("general_agent") := by
    intro j hj
    simp only [List.mem_cons, List.not_mem_nil, or_false, not_or] at hj
    obtain ⟨h1, h2, h3, h4, h5, h6, h7, h8⟩ := hj
    unfold routeHandler routeByIntent
    rw [if_neg (by tauto), if_neg (by tauto), if_neg h8, if_neg h5, if_neg h6, if_neg h7]
    rfl
  refine ⟨?_, ?_, ?_, ?_, ?_, ?_, ?_, hdef i⟩
  · by_cases hm : i ∈ ([("symptom_analysis" : String), ("health_tracking"),
        ("medication_query"), ("medication_interaction"), ("report_analysis"),
        ("diagnosis_assistance"), ("lifestyle_advice"), ("emergency")] : List String)
    · simp only [List.mem_cons, List.not_mem_nil, or_false] at hm
      rcases hm with rfl | rfl | rfl | rfl | rfl | rfl | rfl | rfl <;> exact ⟨_, rfl⟩
    · exact ⟨_, hdef i hm⟩
  · rintro (rfl | rfl) <;> rfl
  · rintro (rfl | rfl) <;> rfl
  · rintro rfl; rfl
  · rintro rfl; rfl
  · rintro rfl; rfl
  · rintro rfl; rfl

/-- Witness for C5 at concrete inputs: the `health_tracking` synonym folds to
the symptom handler, and the unmapped `treatment_planning` takes the default
edge to the general handler. -/
theorem claim_C5_witness :
    routeHandler ("health_tracking") = some ("symptom_agent")
      ∧ routeHandler ("treatment_planning") = some ("general_agent") :=
  ⟨(claim_C5 ("health_tracking")).2.1 (Or.inr rfl),
   (claim_C5 ("treatment_planning")).2.2.2.2.2.2.2 (by decide)⟩

/-- Claim C9: a message with an explicit report-reference token, or uploaded
reports in the caller context together with an analysis-intent keyword, makes
the classifier short-circuit: intent is set to `report_analysis` with empty
entities and the model-assisted path is not invoked (no external call). -/
theorem claim_C9 (env : Env) (s : AgentState)
    (h : strIn ("Report ID:").toList s.user_message.toList = true
       ∨ strIn ("report id").toList (lowerList s.user_message.toList) = true
       ∨ (s.user_context.uploaded_reports ≠ []
            ∧ (strIn ("analyze").toList (lowerList s.user_message.toList) = true
              ∨ strIn ("report").toList (lowerList s.user_message.toList) = true))) :
    classifyIntent env s =
      Except.ok ({ s with intent := some ("report_analysis"),
                          extracted_entities := noEntities,
                          agent_path := [("intent_classifier" : String)] },
                 ([] : List ExtCall)) := by
  have hc : classifyShortcut s = true := by
    unfold classifyShortcut
    rcases h with h | h | ⟨h1, h2⟩
    · rw [h]; simp
    · rw [h]; simp
    · have he : s.user_context.uploaded_reports.isEmpty = false := by
        cases hul : s.user_context.uploaded_reports with
        | nil => exact absurd hul h1
        | cons a t => rfl
      rcases h2 with h2 | h2 <;> rw [he, h2] <;> simp
  simp [classifyIntent, hc]

/-- Witness for C9: the message is exactly a report reference. -/
theorem claim_C9_witness :
    classifyIntent envBase stReportRef =
      Except.ok ({ stReportRef with intent := some ("report_analysis"),
                                    extracted_entities := noEntities,
                                    agent_path := [("intent_classifier" : String)] },
                 ([] : List ExtCall)) :=
  claim_C9 envBase stReportRef (Or.inl (by decide))

/-- Claim C2: after the medication handler's batch of external calls returns,
the aggregated api-data map has exactly one entry per requested call name
(`fda_info`, `rxnorm_info`, `safety_analysis`), whatever each underlying call
did (success, raised exception, or timeout — `clientResult` of an arbitrary
`ApiOutcome` covers all three), and the aggregation is a total function:
provider-level failures are caught inside the clients and recorded, never
re-raised. -/
theorem claim_C2 (env : Env) :
    ((medicationFetch env).1.map Prod.fst
        = [("fda_info" : String), ("rxnorm_info"), ("safety_analysis")])
      ∧ ([("fda_info" : String), ("rxnorm_info"), ("safety_analysis")] : List String).Nodup
      ∧ (∀ n, n ∈ (medicationFetch env).1.map Prod.fst →
          ∃ v, (medicationFetch env).1.lookup n = some v)
      ∧ (medicationFetch env).1.lookup ("fda_info")
          = some (clientResult (env.api ("search_drug_info")))
      ∧ (medicationFetch env).1.lookup ("rxnorm_info")
          = some (clientResult (env.api ("search_rxnorm")))
      ∧ (medicationFetch env).1.lookup ("safety_analysis")
          = some ((analyzeMedicationSafety env).1) := by
  refine ⟨rfl, by decide, ?_, rfl, rfl, rfl⟩
  intro n hn
  simp only [medicationFetch, List.map_cons, List.map_nil, List.mem_cons,
    List.mem_singleton, List.not_mem_nil, or_false] at hn
  rcases hn with rfl | rfl | rfl <;> exact ⟨_, rfl⟩

/-- Witness for C2: with every provider down (each call raising), all three
names still have exactly one (failure) entry. -/
theorem claim_C2_witness :
    ("fda_info" : String) ∈ (medicationFetch envBase).1.map Prod.fst
      ∧ ∃ v, (medicationFetch envBase).1.lookup ("fda_info") = some v :=
  ⟨by decide, (claim_C2 envBase).2.2.1 ("fda_info") (by decide)⟩

/-- Claim C3 (refuted; the code is the slip): the three external operations of
the medication handler are awaited strictly one after the other — each call's
finish event precedes the next call's start event — rather than being started
concurrently; a timed-out call is recorded as a generic error string by
`clientResult`, not as a typed TIMEOUT failure kind.  The trace below is the
observable call sequence of `_medication_agent`'s fetch branch for every
environment. -/
theorem claim_C3 (env : Env) :
    (medicationFetch env).2 = medTraceLiteral
      ∧ medTraceLiteral.indexOf (ExtCall.apiFin ("search_drug_info"))
          < medTraceLiteral.indexOf (ExtCall.apiStart ("search_rxnorm"))
      ∧ clientResult ApiOutcome.timeout = ApiVal.failure ("timed out") := by
  refine ⟨rfl, ?_, rfl⟩
  decide

/-- Claim C1 (the code lacks the specified behaviour): when a handler raises,
nothing in the engine catches it — there is no try/except around the handler
nodes in `_build_graph` nor around `graph.ainvoke` in `process_message` — so
the run aborts with the error instead of completing with a fallback fragment
and a `dataLogger`/`responseSynthesizer` path. -/
theorem claim_C1 :
    processMessage envHandlerFail ("Advil dose") 1 none emptyContext []
      = Except.error ("llm boom") := rfl

/- ### Run-level helper lemmas -/

theorem runGraph_ok {env : Env} {s0 s1 : AgentState} {c1 : List ExtCall} {hname : String}
    {s3 : AgentState} {c3 : List ExtCall}
    (hclass : classifyIntent env s0 = Except.ok (s1, c1))
    (hedge : edgeTarget (routeByIntent ((retrieveContext s1).intent.getD (""))) = some hname)
    (hdisp : dispatch env hname (retrieveContext s1) = Except.ok (s3, c3)) :
    runGraph env s0 =
      Except.ok ⟨responseGenerator (dataLogger s3), c1 ++ c3,
        [("classify_intent" : String), ("retrieve_context"), hname,
         ("data_logger"), ("response_generator")]⟩ := by
  simp only [runGraph, hclass, hedge, hdisp]

theorem runGraph_ok_inv {env : Env} {s0 : AgentState} {out : RunOut}
    (h : runGraph env s0 = Except.ok out) :
    ∃ s1 c1 hname s3 c3,
      classifyIntent env s0 = Except.ok (s1, c1)
        ∧ edgeTarget (routeByIntent ((retrieveContext s1).intent.getD (""))) = some hname
        ∧ dispatch env hname (retrieveContext s1) = Except.ok (s3, c3)
        ∧ out = ⟨responseGenerator (dataLogger s3), c1 ++ c3,
            [("classify_intent" : String), ("retrieve_context"), hname,
             ("data_logger"), ("response_generator")]⟩ := by
  unfold runGraph at h
  cases hclass : classifyIntent env s0 with
  | error e => rw [hclass] at h; exact absurd h (by simp)
  | ok p1 =>
    obtain ⟨s1, c1⟩ := p1
    rw [hclass] at h
    simp only at h
    cases he : edgeTarget (routeByIntent ((retrieveContext s1).intent.getD (""))) with
    | none => rw [he] at h; exact absurd h (by simp)
    | some hname =>
      rw [he] at h
      simp only at h
      cases hdisp : dispatch env hname (retrieveContext s1) with
      | error e => rw [hdisp] at h; exact absurd h (by simp)
      | ok p3 =>
        obtain ⟨s3, c3⟩ := p3
        rw [hdisp] at h
        rw [Except.ok.injEq] at h
        exact ⟨s1, c1, hname, s3, c3, rfl, he, hdisp, h.symm⟩

theorem edgeTarget_handlers {k h' : String} (he : edgeTarget k = some h') :
    h' = "symptom_agent" ∨ h' = "medication_agent" ∨ h' = "report_agent"
      ∨ h' = "diagnosis_agent" ∨ h' = "lifestyle_agent" ∨ h' = "emergency_agent"
      ∨ h' = "general_agent" := by
  unfold edgeTarget at he
  split_ifs at he
  all_goals rw [Option.some.injEq] at he
  all_goals subst he
  all_goals tauto

/- ### The remaining claims -/

/-- Claim C4: when the event loop is already running — which holds for every
run entered through `process_message`, since the graph is awaited from a
coroutine — the external-data-fetch branches of the medication and diagnosis
handlers are skipped (`api_data` stays empty, no call events), and a run
through `process_message` performs no external API call at all. -/
theorem claim_C4 :
    (∀ (env : Env) (q : Option String) (syms : List String), env.loopRunning = true →
        medicationApiData env q = ([], []) ∧ diagnosisApiData env syms = ([], []))
      ∧ (∀ (env : Env) (msg : String) (uid : Nat) (cid : Option Nat) (ctx : UserContext)
          (hist : List (String × String)) (res : ProcessResult × List ExtCall),
          processMessage env msg uid cid ctx hist = Except.ok res →
          ∀ n : String, ExtCall.apiStart n ∉ res.2) := by
  constructor
  · intro env q syms hloop
    constructor
    · cases q with
      | none => rfl
      | some m => simp [medicationApiData, hloop]
    · by_cases hs : syms = [] <;> simp [diagnosisApiData, hs, hloop]
  · intro env msg uid cid ctx hist res hres n
    unfold processMessage at hres
    cases hr : runGraph { env with loopRunning := true } (initialState msg uid cid ctx hist) with
    | error e => rw [hr] at hres; exact absurd hres (by simp)
    | ok out =>
      rw [hr] at hres
      rw [Except.ok.injEq] at hres
      obtain ⟨s1, c1, hname, s3, c3, hclass, he, hdisp, hout⟩ := runGraph_ok_inv hr
      intro hmem
      rw [← hres] at hmem
      simp only at hmem
      rw [hout] at hmem
      simp only at hmem
      rcases List.mem_append.mp hmem with hmem1 | hmem1
      · exact (classifyIntent_ok_inv hclass).2.2.2 n hmem1
      · exact dispatch_ok_no_apiStart rfl hdisp n hmem1

/-- Witness for C4: with a running loop the medication fetch yields nothing,
and a concrete `process_message` run makes no external API call. -/
theorem claim_C4_witness :
    medicationApiData envLoopOn (some ("Aspirin")) = ([], [])
      ∧ ∃ res, processMessage envBase ("hi") 1 none emptyContext [] = Except.ok res
          ∧ ∀ n : String, ExtCall.apiStart n ∉ res.2 :=
  ⟨(claim_C4.1 envLoopOn (some ("Aspirin")) [] rfl).1,
   ⟨_, rfl, claim_C4.2 envBase ("hi") 1 none emptyContext [] _ rfl⟩⟩

/-- Claim C7: the synthesizer returns a single fragment verbatim minus
normalization, joins several fragments with a blank line in insertion order
before normalizing, and `finalResponse` is written only by the terminal
node — every other node preserves it — with exactly one synthesizer
execution per completed run. -/
theorem claim_C7 :
    (∀ (s : AgentState) (x : String), s.agent_responses = [x] →
        (responseGenerator s).final_response = formatResponse x)
      ∧ (∀ s : AgentState, 2 ≤ s.agent_responses.length →
          (responseGenerator s).final_response =
            formatResponse (String.intercalate ("\n\n") s.agent_responses))
      ∧ (∀ (env : Env) (s s1 : AgentState) (c1 : List ExtCall),
          classifyIntent env s = Except.ok (s1, c1) → s1.final_response = s.final_response)
      ∧ (∀ s : AgentState, (retrieveContext s).final_response = s.final_response)
      ∧ (∀ (env : Env) (h : String) (s s1 : AgentState) (c : List ExtCall),
          dispatch env h s = Except.ok (s1, c) → s1.final_response = s.final_response)
      ∧ (∀ s : AgentState, (dataLogger s).final_response = s.final_response)
      ∧ (∀ (env : Env) (s0 : AgentState) (out : RunOut), runGraph env s0 = Except.ok out →
          out.nodesExecuted.count ("response_generator") = 1) := by
  refine ⟨?_, ?_, ?_, fun s => rfl, ?_, fun s => rfl, ?_⟩
  · intro s x hx
    simp [responseGenerator, hx]
  · intro s hlen
    have hne : s.agent_responses.length ≠ 1 := by omega
    simp [responseGenerator, hne]
  · intro env s s1 c1 hclass
    exact (classifyIntent_ok_inv hclass).2.1
  · intro env h s s1 c hdisp
    exact (dispatch_ok_inv hdisp).2
  · intro env s0 out hrun
    obtain ⟨s1, c1, hname, s3, c3, hclass, he, hdisp, hout⟩ := runGraph_ok_inv hrun
    have hh := edgeTarget_handlers he
    rw [hout]
    rcases hh with rfl | rfl | rfl | rfl | rfl | rfl | rfl <;> rfl

/-- Witness for C7: a single fragment comes back verbatim minus
normalization, and a concrete completed run executes the synthesizer once. -/
theorem claim_C7_witness :
    (responseGenerator { stBase with agent_responses := [("one")] }).final_response
        = formatResponse ("one")
      ∧ ∃ out, runGraph envBase stBase = Except.ok out
          ∧ out.nodesExecuted.count ("response_generator") = 1 :=
  ⟨claim_C7.1 { stBase with agent_responses := [("one")] } ("one") rfl,
   ⟨_, rfl, claim_C7.2.2.2.2.2.2 envBase stBase _ rfl⟩⟩

/-- Claim C8: the emergency handler is a pure deterministic function that
appends the fixed safety-directive fragment, its dispatch makes zero
external calls, the normalized directive is a fixed byte string, and every
run whose classified intent is `emergency` completes with `finalResponse`
equal to that fixed text, the handler contributing no external call. -/
theorem claim_C8 :
    (∀ s : AgentState, emergencyAgent s =
        { s with agent_responses := s.agent_responses ++ [emergencyText],
                 agent_path := s.agent_path ++ [("emergency_agent" : String)] })
      ∧ (∀ (env : Env) (s : AgentState),
          dispatch env ("emergency_agent") s = Except.ok (emergencyAgent s, ([] : List ExtCall)))
      ∧ (∀ (env : Env) (s0 s1 : AgentState) (c1 : List ExtCall),
          classifyIntent env s0 = Except.ok (s1, c1) →
          s1.intent = some ("emergency") →
          s0.agent_responses = [] →
          ∃ out, runGraph env s0 = Except.ok out
            ∧ out.state.final_response = formatResponse emergencyText
            ∧ out.calls = c1) := by
  refine ⟨fun s => rfl, fun env s => rfl, ?_⟩
  intro env s0 s1 c1 hclass hintent hresp
  have hs1resp : s1.agent_responses = [] := by
    rw [(classifyIntent_ok_inv hclass).2.2.1, hresp]
  have hedge : edgeTarget (routeByIntent ((retrieveContext s1).intent.getD ("")))
      = some ("emergency_agent") := by
    rw [show (retrieveContext s1).intent = s1.intent from rfl, hintent]
    rfl
  have hdisp : dispatch env ("emergency_agent") (retrieveContext s1)
      = Except.ok (emergencyAgent (retrieveContext s1), ([] : List ExtCall)) := rfl
  refine ⟨_, runGraph_ok hclass hedge hdisp, ?_, by simp⟩
  simp [responseGenerator, dataLogger, emergencyAgent, retrieveContext, hs1resp]

/-- Witness for C8: a concrete run classified as an emergency produces the
fixed directive with no call beyond the classifier's. -/
theorem claim_C8_witness :
    ∃ out, runGraph envEmergency stEmergency = Except.ok out
      ∧ out.state.final_response = formatResponse emergencyText
      ∧ out.calls = [ExtCall.llm ("classify_intent")] :=
  claim_C8.2.2 envEmergency stEmergency _ _ rfl rfl rfl

/-- Claim C10: every completed run's `path` ends with the data-logger node
name followed by the response-synthesizer node name, and the length of
`path` equals the number of nodes actually executed (each executed node
appends exactly one entry, none is skipped). -/
theorem claim_C10 (env : Env) (s0 : AgentState) (out : RunOut)
    (h : runGraph env s0 = Except.ok out) :
    ([("data_logger" : String), ("response_generator")] <:+ out.state.agent_path)
      ∧ out.state.agent_path.length = out.nodesExecuted.length := by
  obtain ⟨s1, c1, hname, s3, c3, hclass, he, hdisp, hout⟩ := runGraph_ok_inv h
  obtain ⟨nm, hpath⟩ := (dispatch_ok_inv hdisp).1
  have hs1path : s1.agent_path = [("intent_classifier" : String)] :=
    (classifyIntent_ok_inv hclass).1
  have hretr : (retrieveContext s1).agent_path
      = s1.agent_path ++ [("context_retriever" : String)] := rfl
  have hstate : out.state.agent_path =
      s3.agent_path ++ [("data_logger" : String), ("response_generator")] := by
    rw [hout]
    simp [responseGenerator, dataLogger]
  constructor
  · rw [hstate]
    exact List.suffix_append _ _
  · rw [hstate, hpath, hretr, hs1path, hout]
    simp

/-- Witness for C10 on a concrete completed run. -/
theorem claim_C10_witness :
    ∃ out, runGraph envBase stBase = Except.ok out
      ∧ ([("data_logger" : String), ("response_generator")] <:+ out.state.agent_path)
      ∧ out.state.agent_path.length = out.nodesExecuted.length :=
  ⟨_, rfl, claim_C10 envBase stBase _ rfl⟩

/- ### Idempotence of the normalization pipeline: infrastructure -/

theorem listStrongInd {P : List Char → Prop}
    (step : ∀ l : List Char, (∀ m : List Char, m.length < l.length → P m) → P l) :
    ∀ l, P l := by
  have H : ∀ (n : Nat) (l : List Char), l.length ≤ n → P l := by
    intro n
    induction n with
    | zero =>
      intro l hl
      exact step l (fun m hm => absurd (Nat.lt_of_lt_of_le hm hl) (Nat.not_lt_zero _))
    | succ n ih =>
      intro l hl
      exact step l (fun m hm => ih m (by omega))
  exact fun l => H l.length l (le_refl _)

/- #### Structure of the closing-scan helpers -/

theorem NoSS_singleton : NoSS ['*'] := by
  intro a b heq
  have := congrArg List.length heq
  simp at this
  omega

theorem NoSS_cons {c : Char} {l : List Char} (h : NoSS l)
    (hc : c = '*' → l.head? ≠ some '*') : NoSS (c :: l) := by
  intro a b heq
  cases a with
  | nil =>
    rw [List.nil_append] at heq
    obtain ⟨h1, h2⟩ := (List.cons.injEq _ _ _ _).mp heq
    exact hc h1 (by rw [h2]; rfl)
  | cons a0 t =>
    rw [List.cons_append] at heq
    obtain ⟨h1, h2⟩ := (List.cons.injEq _ _ _ _).mp heq
    exact h t b h2

theorem NoSS_of_cons {c : Char} {l : List Char} (h : NoSS (c :: l)) : NoSS l :=
  fun a b heq => h (c :: a) b (by rw [heq]; rfl)

theorem findClose2_some {m x r : List Char} (h : findClose2 m = some (x, r)) :
    m = x ++ '*' :: '*' :: r ∧ '\n' ∉ x ∧ NoSS (x ++ ['*']) := by
  induction m generalizing x with
  | nil => exact absurd h (by simp [findClose2])
  | cons c rest ih =>
    unfold findClose2 at h
    split_ifs at h with hg hn
    · rw [Option.some.injEq, Prod.mk.injEq] at h
      obtain ⟨h1, h2⟩ := h
      obtain ⟨hc, hh⟩ := hg
      subst hc
      cases rest with
      | nil => exact absurd hh (by simp)
      | cons d rt =>
        have hd : d = '*' := by simpa using hh
        subst hd
        refine ⟨by rw [← h1, ← h2]; rfl, by rw [← h1]; simp, ?_⟩
        rw [← h1]
        exact NoSS_singleton
    · cases hfc : findClose2 rest with
      | none => rw [hfc] at h; exact absurd h (by simp)
      | some q =>
        obtain ⟨x', r'⟩ := q
        rw [hfc] at h
        simp only [Option.map] at h
        rw [Option.some.injEq, Prod.mk.injEq] at h
        obtain ⟨hx, hr⟩ := h
        subst hr
        obtain ⟨hsh, hnl, hnoss⟩ := ih hfc
        have hxeq : x = c :: x' := hx.symm
        subst hxeq
        refine ⟨by rw [hsh]; rfl, ?_, ?_⟩
        · intro hmem
          rcases List.mem_cons.mp hmem with hmem | hmem
          · exact hn hmem.symm
          · exact hnl hmem
        · rw [List.cons_append]
          refine NoSS_cons hnoss ?_
          intro hc hhd
          apply hg
          refine ⟨hc, ?_⟩
          cases x' with
          | nil =>
            simp only [List.nil_append] at hhd
            rw [hsh]
            simpa using hhd
          | cons e xt =>
            simp only [List.cons_append] at hhd
            rw [hsh]
            simpa using hhd

theorem findClose2_some_len {m x r : List Char} (h : findClose2 m = some (x, r)) :
    r.length + 2 ≤ m.length := by
  have := (findClose2_some h).1
  rw [this]
  simp only [List.length_append, List.length_cons]
  omega

theorem findClose2_of_shape {x v : List Char} (hx : '\n' ∉ x) :
    ∃ p, findClose2 (x ++ '*' :: '*' :: v) = some p := by
  induction x with
  | nil => exact ⟨([], v), by simp [findClose2]⟩
  | cons c t ih =>
    have hc : c ≠ '\n' := fun h => hx (h ▸ List.mem_cons_self c t)
    rw [List.cons_append]
    by_cases hg : c = '*' ∧ (t ++ '*' :: '*' :: v).head? = some '*'
    · refine ⟨([], (t ++ '*' :: '*' :: v).tail), ?_⟩
      unfold findClose2
      rw [if_pos hg]
    · obtain ⟨p, hp⟩ := ih (fun hm => hx (List.mem_cons_of_mem c hm))
      refine ⟨(c :: p.1, p.2), ?_⟩
      unfold findClose2
      rw [if_neg hg, if_neg hc, hp]
      rfl

theorem takeToStar_some {m x r : List Char} (h : takeToStar m = some (x, r)) :
    m = x ++ '*' :: r ∧ '*' ∉ x := by
  induction m generalizing x with
  | nil => exact absurd h (by simp [takeToStar])
  | cons c rest ih =>
    unfold takeToStar at h
    split_ifs at h with hc
    · rw [Option.some.injEq, Prod.mk.injEq] at h
      subst hc
      rw [← h.1, ← h.2]
      exact ⟨rfl, by simp⟩
    · cases hfc : takeToStar rest with
      | none => rw [hfc] at h; exact absurd h (by simp)
      | some q =>
        obtain ⟨x', r'⟩ := q
        rw [hfc] at h
        simp only [Option.map] at h
        rw [Option.some.injEq, Prod.mk.injEq] at h
        obtain ⟨hx, hr⟩ := h
        subst hr
        obtain ⟨hsh, hnl⟩ := ih hfc
        have hxeq : x = c :: x' := hx.symm
        subst hxeq
        refine ⟨by rw [hsh]; rfl, ?_⟩
        intro hmem
        rcases List.mem_cons.mp hmem with hmem | hmem
        · exact hc hmem.symm
        · exact hnl hmem

theorem takeToStar_none {m : List Char} (h : takeToStar m = none) : '*' ∉ m := by
  induction m with
  | nil => simp
  | cons c rest ih =>
    unfold takeToStar at h
    split_ifs at h with hc
    cases hfc : takeToStar rest with
    | some q => rw [hfc] at h; exact absurd h (by simp)
    | none =>
      intro hmem
      rcases List.mem_cons.mp hmem with hmem | hmem
      · exact hc hmem.symm
      · exact ih hfc hmem

theorem takeToStar_some_len {m x r : List Char} (h : takeToStar m = some (x, r)) :
    r.length < m.length := by
  have := (takeToStar_some h).1
  rw [this]
  simp only [List.length_append, List.length_cons]
  omega

/- #### Fuel irrelevance and unfolding equations -/

theorem sub1F_fuel :
    ∀ (f1 : Nat) (l : List Char) (f2 : Nat), l.length ≤ f1 → l.length ≤ f2 →
      sub1F f1 l = sub1F f2 l := by
  intro f1
  induction f1 with
  | zero =>
    intro l f2 h1 h2
    have : l = [] := List.eq_nil_of_length_eq_zero (by omega)
    subst this
    cases f2 <;> rfl
  | succ f1 ih =>
    intro l f2 h1 h2
    cases l with
    | nil => cases f2 <;> rfl
    | cons c rest =>
      cases f2 with
      | zero => simp at h2
      | succ f2 =>
        simp only [sub1F]
        by_cases hg : c = '*' ∧ rest.head? = some '*'
        · rw [if_pos hg, if_pos hg]
          cases hf : findClose2 rest.tail with
          | some p =>
            obtain ⟨x, r⟩ := p
            have hlen := findClose2_some_len hf
            have htl : rest.tail.length ≤ rest.length := by
              cases rest <;> simp
            simp only [List.length_cons] at h1 h2
            simp only
            rw [ih r f2 (by omega) (by omega)]
          | none =>
            simp only [List.length_cons] at h1 h2
            simp only
            rw [ih rest f2 (by omega) (by omega)]
        · rw [if_neg hg, if_neg hg]
          simp only [List.length_cons] at h1 h2
          rw [ih rest f2 (by omega) (by omega)]

theorem sub1_nil : sub1 [] = [] := rfl

theorem sub1_cons_pos {c : Char} {rest x r : List Char}
    (hg : c = '*' ∧ rest.head? = some '*') (hf : findClose2 rest.tail = some (x, r)) :
    sub1 (c :: rest) = x ++ sub1 r := by
  show sub1F (rest.length + 1) (c :: rest) = _
  simp only [sub1F]
  rw [if_pos hg, hf]
  simp only
  congr 1
  have hlen := findClose2_some_len hf
  have htl : rest.tail.length ≤ rest.length := by cases rest <;> simp
  exact sub1F_fuel rest.length r r.length (by omega) (le_refl _)

theorem sub1_cons_noclose {c : Char} {rest : List Char}
    (hg : c = '*' ∧ rest.head? = some '*') (hf : findClose2 rest.tail = none) :
    sub1 (c :: rest) = '*' :: sub1 rest := by
  show sub1F (rest.length + 1) (c :: rest) = _
  simp only [sub1F]
  rw [if_pos hg, hf]
  rfl

theorem sub1_cons_else {c : Char} {rest : List Char}
    (hg : ¬(c = '*' ∧ rest.head? = some '*')) :
    sub1 (c :: rest) = c :: sub1 rest := by
  show sub1F (rest.length + 1) (c :: rest) = _
  simp only [sub1F]
  rw [if_neg hg]
  rfl

theorem sub2F_fuel :
    ∀ (f1 : Nat) (p : Char) (l : List Char) (f2 : Nat), l.length ≤ f1 → l.length ≤ f2 →
      sub2F f1 p l = sub2F f2 p l := by
  intro f1
  induction f1 with
  | zero =>
    intro p l f2 h1 h2
    have : l = [] := List.eq_nil_of_length_eq_zero (by omega)
    subst this
    cases f2 <;> rfl
  | succ f1 ih =>
    intro p l f2 h1 h2
    cases l with
    | nil => cases f2 <;> rfl
    | cons c rest =>
      cases f2 with
      | zero => simp at h2
      | succ f2 =>
        simp only [sub2F]
        simp only [List.length_cons] at h1 h2
        by_cases hg : c = '*' ∧ p ≠ '*'
        · rw [if_pos hg, if_pos hg]
          by_cases hh : rest.head? = some '*'
          · rw [if_pos hh, if_pos hh, ih '*' rest f2 (by omega) (by omega)]
          · rw [if_neg hh, if_neg hh]
            cases ht : takeToStar rest with
            | some q =>
              obtain ⟨x, r⟩ := q
              have hlen := takeToStar_some_len ht
              simp only
              by_cases hr : r.head? = some '*'
              · rw [if_pos hr, if_pos hr, ih '*' rest f2 (by omega) (by omega)]
              · rw [if_neg hr, if_neg hr, ih '*' r f2 (by omega) (by omega)]
            | none =>
              simp only
              rw [ih '*' rest f2 (by omega) (by omega)]
        · rw [if_neg hg, if_neg hg, ih c rest f2 (by omega) (by omega)]

theorem sub2_nil (p : Char) : sub2 p [] = [] := rfl

theorem sub2_cons_else {p c : Char} {rest : List Char} (hg : ¬(c = '*' ∧ p ≠ '*')) :
    sub2 p (c :: rest) = c :: sub2 c rest := by
  show sub2F (rest.length + 1) p (c :: rest) = _
  simp only [sub2F]
  rw [if_neg hg]
  rfl

theorem sub2_cons_look {p : Char} {rest : List Char} (hp : p ≠ '*')
    (hh : rest.head? = some '*') : sub2 p ('*' :: rest) = '*' :: sub2 '*' rest := by
  show sub2F (rest.length + 1) p ('*' :: rest) = _
  simp only [sub2F]
  rw [if_pos ⟨trivial, hp⟩, if_pos hh]
  rfl

theorem sub2_cons_nostar {p : Char} {rest : List Char} (hp : p ≠ '*')
    (hh : ¬ rest.head? = some '*') (ht : takeToStar rest = none) :
    sub2 p ('*' :: rest) = '*' :: sub2 '*' rest := by
  show sub2F (rest.length + 1) p ('*' :: rest) = _
  simp only [sub2F]
  rw [if_pos ⟨trivial, hp⟩, if_neg hh, ht]
  rfl

theorem sub2_cons_closefail {p : Char} {rest x r : List Char} (hp : p ≠ '*')
    (hh : ¬ rest.head? = some '*') (ht : takeToStar rest = some (x, r))
    (hr : r.head? = some '*') : sub2 p ('*' :: rest) = '*' :: sub2 '*' rest := by
  show sub2F (rest.length + 1) p ('*' :: rest) = _
  simp only [sub2F]
  rw [if_pos ⟨trivial, hp⟩, if_neg hh, ht]
  simp only
  rw [if_pos hr]
  rfl

theorem sub2_cons_match {p : Char} {rest x r : List Char} (hp : p ≠ '*')
    (hh : ¬ rest.head? = some '*') (ht : takeToStar rest = some (x, r))
    (hr : ¬ r.head? = some '*') : sub2 p ('*' :: rest) = x ++ sub2 '*' r := by
  show sub2F (rest.length + 1) p ('*' :: rest) = _
  simp only [sub2F]
  rw [if_pos ⟨trivial, hp⟩, if_neg hh, ht]
  simp only
  rw [if_neg hr]
  congr 1
  have hlen := takeToStar_some_len ht
  exact sub2F_fuel rest.length '*' r r.length (by omega) (le_refl _)

theorem collapseF_fuel (d : Char) (k : Nat) :
    ∀ (f1 : Nat) (l : List Char) (f2 : Nat), l.length ≤ f1 → l.length ≤ f2 →
      collapseF d k f1 l = collapseF d k f2 l := by
  intro f1
  induction f1 with
  | zero =>
    intro l f2 h1 h2
    have : l = [] := List.eq_nil_of_length_eq_zero (by omega)
    subst this
    cases f2 <;> rfl
  | succ f1 ih =>
    intro l f2 h1 h2
    cases l with
    | nil => cases f2 <;> rfl
    | cons c rest =>
      cases f2 with
      | zero => simp at h2
      | succ f2 =>
        simp only [collapseF]
        simp only [List.length_cons] at h1 h2
        have hdl : (rest.dropWhile (fun b => b == c)).length ≤ rest.length :=
          (List.dropWhile_suffix _).length_le
        rw [ih (rest.dropWhile (fun b => b == c)) f2 (by omega) (by omega)]

theorem collapse_nil (d : Char) (k : Nat) : collapse d k [] = [] := rfl

theorem collapse_cons (d : Char) (k : Nat) (c : Char) (rest : List Char) :
    collapse d k (c :: rest) =
      List.replicate
          (if c = d ∧ k + 1 ≤ (rest.takeWhile (fun b => b == c)).length + 1 then k
           else (rest.takeWhile (fun b => b == c)).length + 1) c ++
        collapse d k (rest.dropWhile (fun b => b == c)) := by
  show collapseF d k (rest.length + 1) (c :: rest) = _
  simp only [collapseF]
  congr 1
  have hdl : (rest.dropWhile (fun b => b == c)).length ≤ rest.length :=
    (List.dropWhile_suffix _).length_le
  exact collapseF_fuel d k rest.length _ _ (by omega) (le_refl _)

/- #### Match-predicate basics -/

theorem HasM1_nil : ¬ HasM1 [] := by
  intro h
  cases h

theorem HasM2_nil (p : Char) : ¬ HasM2 p [] := by
  intro h
  cases h

theorem HasM1_cons_inv {c : Char} {l : List Char} (h : HasM1 (c :: l)) :
    (c = '*' ∧ ∃ x v, l = '*' :: (x ++ '*' :: '*' :: v) ∧ '\n' ∉ x) ∨ HasM1 l := by
  cases h with
  | here x v hx => exact Or.inl ⟨rfl, x, v, rfl, hx⟩
  | there _ h' => exact Or.inr h'

theorem HasM2_cons_inv {p c : Char} {l : List Char} (h : HasM2 p (c :: l)) :
    (c = '*' ∧ p ≠ '*' ∧ ∃ x v, l = x ++ '*' :: v ∧ x ≠ [] ∧ '*' ∉ x ∧ v.head? ≠ some '*') ∨
      HasM2 c l := by
  cases h with
  | here _ x v hp hx hs hv => exact Or.inl ⟨rfl, hp, x, v, rfl, hx, hs, hv⟩
  | there _ _ h' => exact Or.inr h'

theorem HasM1_append_left (a : List Char) {l : List Char} (h : HasM1 l) :
    HasM1 (a ++ l) := by
  induction a with
  | nil => exact h
  | cons c t ih => exact HasM1.there c ih

theorem HasM1_append_right (b : List Char) {l : List Char} (h : HasM1 l) :
    HasM1 (l ++ b) := by
  induction h with
  | here x v hx =>
    simp only [List.cons_append, List.append_assoc]
    exact HasM1.here x (v ++ b) hx
  | there c _ ih =>
    rw [List.cons_append]
    exact HasM1.there c ih

theorem HasM1_skip_starfree {a m : List Char} (ha : '*' ∉ a) (h : HasM1 (a ++ m)) :
    HasM1 m := by
  induction a with
  | nil => exact h
  | cons c t ih =>
    rw [List.cons_append] at h
    rcases HasM1_cons_inv h with ⟨hc, _⟩ | h'
    · exact absurd (hc ▸ List.mem_cons_self c t) ha
    · exact ih (fun hm => ha (List.mem_cons_of_mem c hm)) h'

theorem HasM1_skip_noss {a m : List Char} (ha : NoSS (a ++ ['*'])) (h : HasM1 (a ++ m)) :
    HasM1 m := by
  induction a with
  | nil => exact h
  | cons c t ih =>
    rw [List.cons_append] at h
    rcases HasM1_cons_inv h with ⟨hc, x, v, heq, _⟩ | h'
    · subst hc
      cases t with
      | nil => exact absurd (show ('*' :: ([] : List Char)) ++ ['*'] =
          [] ++ '*' :: '*' :: [] from rfl) (ha [] [])
      | cons d t2 =>
        have hd : d = '*' := by
          have := congrArg List.head? heq
          simpa using this
        subst hd
        exact absurd (show ('*' :: '*' :: t2) ++ ['*'] =
          [] ++ '*' :: '*' :: (t2 ++ ['*']) from rfl) (ha [] (t2 ++ ['*']))
    · refine ih ?_ h'
      intro a2 b2 heq2
      exact ha (c :: a2) b2 (by rw [List.cons_append, heq2, List.cons_append])

theorem HasM2_prev {p q : Char} {l : List Char} (hq : q ≠ '*') (h : HasM2 p l) :
    HasM2 q l := by
  cases h with
  | here _ x v hp hx hs hv => exact HasM2.here q x v hq hx hs hv
  | there _ c h' => exact HasM2.there q c h'

theorem HasM2_prev_irrel {p q : Char} {l : List Char} (hl : l.head? ≠ some '*')
    (h : HasM2 p l) : HasM2 q l := by
  cases h with
  | here _ x v hp hx hs hv => exact absurd rfl hl
  | there _ c h' => exact HasM2.there q c h'

theorem head_ne_star_append {v b : List Char} (hv : v.head? ≠ some '*') (hb : '*' ∉ b) :
    (v ++ b).head? ≠ some '*' := by
  cases v with
  | nil =>
    cases b with
    | nil => simp
    | cons e t =>
      intro h
      simp only [List.nil_append, List.head?_cons, Option.some.injEq] at h
      exact hb (h ▸ List.mem_cons_self e t)
  | cons w vt => simpa using hv

theorem HasM2_append_right {p : Char} {l : List Char} (b : List Char) (hb : '*' ∉ b)
    (h : HasM2 p l) : HasM2 p (l ++ b) := by
  induction h with
  | here q x v hp hx hs hv =>
    simp only [List.cons_append, List.append_assoc]
    exact HasM2.here q x (v ++ b) hp hx hs (head_ne_star_append hv hb)
  | there q c _ ih =>
    rw [List.cons_append]
    exact HasM2.there q c ih

theorem HasM2_skip {p : Char} : ∀ (a : List Char) {m : List Char}, '*' ∉ a →
    HasM2 p (a ++ m) → HasM2 (a.getLastD p) m := by
  intro a
  induction a generalizing p with
  | nil => intro m _ h; exact h
  | cons c t ih =>
    intro m ha h
    rw [List.cons_append] at h
    rcases HasM2_cons_inv h with ⟨hc, _⟩ | h'
    · exact absurd (hc ▸ List.mem_cons_self c t) ha
    · rw [List.getLastD_cons]
      exact ih (fun hm => ha (List.mem_cons_of_mem c hm)) h'

theorem HasM2_unskip {p : Char} : ∀ (a : List Char) {m : List Char}, '*' ∉ a →
    HasM2 (a.getLastD p) m → HasM2 p (a ++ m) := by
  intro a
  induction a generalizing p with
  | nil => intro m _ h; exact h
  | cons c t ih =>
    intro m ha h
    rw [List.cons_append]
    rw [List.getLastD_cons] at h
    exact HasM2.there p c (ih (fun hm => ha (List.mem_cons_of_mem c hm)) h)

theorem HasM2_unskip_star (p : Char) {w : List Char} (h : HasM2 '*' w) :
    ∀ s, 1 ≤ s → HasM2 p (List.replicate s '*' ++ w) := by
  intro s
  induction s generalizing p with
  | zero => intro h0; exact absurd h0 (by omega)
  | succ s ih =>
    intro _
    rw [List.replicate_succ, List.cons_append]
    rcases Nat.eq_zero_or_pos s with h0 | hs
    · subst h0
      rw [List.replicate_zero, List.nil_append]
      exact HasM2.there p '*' h
    · exact HasM2.there p '*' (ih '*' hs)

theorem HasM2_mem {p : Char} {l : List Char} (h : HasM2 p l) : '*' ∈ l := by
  induction h with
  | here q x v hp hx hs hv => exact List.mem_cons_self _ _
  | there q c _ ih => exact List.mem_cons_of_mem c ih

theorem NoSS_append_right {a l : List Char} (h : NoSS (a ++ l)) : NoSS l := by
  induction a with
  | nil => exact h
  | cons c t ih =>
    rw [List.cons_append] at h
    exact ih (NoSS_of_cons h)

theorem firstStarEq : ∀ (a1 : List Char) {b1 : List Char} (a2 : List Char) {b2 : List Char},
    a1 ++ '*' :: b1 = a2 ++ '*' :: b2 → '*' ∉ a1 → '*' ∉ a2 → a1 = a2 ∧ b1 = b2 := by
  intro a1
  induction a1 with
  | nil =>
    intro b1 a2 b2 h h1 h2
    cases a2 with
    | nil => exact ⟨rfl, by simpa using h⟩
    | cons e t =>
      rw [List.nil_append, List.cons_append] at h
      obtain ⟨he, -⟩ := (List.cons.injEq _ _ _ _).mp h
      exact absurd (he ▸ List.mem_cons_self e t) h2
  | cons c t ih =>
    intro b1 a2 b2 h h1 h2
    cases a2 with
    | nil =>
      rw [List.cons_append, List.nil_append] at h
      obtain ⟨he, -⟩ := (List.cons.injEq _ _ _ _).mp h
      exact absurd (he ▸ List.mem_cons_self c t) h1
    | cons e t2 =>
      rw [List.cons_append, List.cons_append] at h
      obtain ⟨he, h3⟩ := (List.cons.injEq _ _ _ _).mp h
      obtain ⟨ht, hb⟩ := ih t2 h3 (fun hm => h1 (List.mem_cons_of_mem c hm))
        (fun hm => h2 (List.mem_cons_of_mem e hm))
      exact ⟨by rw [he, ht], hb⟩

theorem dsFirst : ∀ (x : List Char) {v : List Char}, '\n' ∉ x →
    ∃ x1 v1, x ++ '*' :: '*' :: v = x1 ++ '*' :: '*' :: v1 ∧ '\n' ∉ x1 ∧
      NoSS (x1 ++ ['*']) := by
  intro x
  induction x with
  | nil => exact fun _ => ⟨[], _, rfl, by simp, NoSS_singleton⟩
  | cons c x2 ih =>
    intro v hx
    obtain ⟨x1, v1, heq, hn1, hns⟩ := ih (fun hm => hx (List.mem_cons_of_mem c hm))
    by_cases hc : c = '*' ∧ (x1 ++ '*' :: '*' :: v1).head? = some '*'
    · cases hx1 : x1 with
      | nil =>
        refine ⟨[], '*' :: v1, ?_, by simp, NoSS_singleton⟩
        rw [List.cons_append, heq, hx1, hc.1]
        rfl
      | cons e t =>
        have he : e = '*' := by
          rw [hx1] at hc
          simpa using hc.2
        refine ⟨[], t ++ '*' :: '*' :: v1, ?_, by simp, NoSS_singleton⟩
        rw [List.cons_append, heq, hx1, hc.1, he]
        rfl
    · refine ⟨c :: x1, v1, ?_, ?_, ?_⟩
      · rw [List.cons_append, heq, List.cons_append]
      · intro hm
        rcases List.mem_cons.mp hm with hm | hm
        · exact hx (hm ▸ List.mem_cons_self c x2)
        · exact hn1 hm
      · rw [List.cons_append]
        refine NoSS_cons hns ?_
        intro hcs hhd
        apply hc
        refine ⟨hcs, ?_⟩
        cases hx1 : x1 with
        | nil => rfl
        | cons e t =>
          rw [hx1] at hhd
          simpa using hhd

/- #### Head and shape computations for the two substitution passes -/

theorem sub1_head_star {m : List Char} (h : (sub1 m).head? = some '*') :
    m.head? = some '*' := by
  cases m with
  | nil => rw [sub1_nil] at h; exact absurd h (by simp)
  | cons c rest =>
    by_cases hg : c = '*' ∧ rest.head? = some '*'
    · rw [List.head?_cons, hg.1]
    · rw [sub1_cons_else hg] at h
      rw [List.head?_cons]
      simpa using h

theorem sub1_star_noclose {rt : List Char} (h : findClose2 rt = none) :
    sub1 ('*' :: rt) = '*' :: sub1 rt := by
  cases hh : rt.head? with
  | none =>
    cases rt with
    | nil => rfl
    | cons e rt2 => simp at hh
  | some d =>
    by_cases hd : d = '*'
    · cases rt with
      | nil => simp at hh
      | cons e rt2 =>
        have he : e = '*' := by
          rw [List.head?_cons, Option.some.injEq] at hh
          rw [hh, hd]
        subst he
        have h2 : findClose2 rt2 = none := by
          by_cases hg2 : rt2.head? = some '*'
          · exact absurd h (by unfold findClose2; rw [if_pos ⟨rfl, hg2⟩]; simp)
          · unfold findClose2 at h
            rw [if_neg (by simp [hg2]), if_neg (by decide)] at h
            cases hfc : findClose2 rt2 with
            | none => rfl
            | some q => rw [hfc] at h; simp at h
        exact sub1_cons_noclose ⟨rfl, (rfl : ('*' :: rt2).head? = some '*')⟩ h2
    · refine sub1_cons_else ?_
      intro hg
      rw [hh, Option.some.injEq] at hg
      exact hd hg.2

theorem findClose2_none_sub1 : ∀ m : List Char, findClose2 m = none →
    findClose2 (sub1 m) = none := by
  refine listStrongInd (fun l ih => ?_)
  cases l with
  | nil => intro h; exact h
  | cons c rest =>
    intro h
    have hg : ¬(c = '*' ∧ rest.head? = some '*') := by
      intro hg
      unfold findClose2 at h
      rw [if_pos hg] at h
      exact absurd h (by simp)
    rw [sub1_cons_else hg]
    by_cases hc : c = '\n'
    · subst hc
      unfold findClose2
      rw [if_neg (fun hg2 => absurd hg2.1 (by decide)), if_pos rfl]
    · have hrest : findClose2 rest = none := by
        unfold findClose2 at h
        rw [if_neg hg, if_neg hc] at h
        cases hfc : findClose2 rest with
        | none => rfl
        | some q => rw [hfc] at h; simp at h
      have hsub := ih rest (by simp) hrest
      unfold findClose2
      rw [if_neg (fun hg2 => hg ⟨hg2.1, sub1_head_star hg2.2⟩), if_neg hc, hsub]
      rfl

theorem sub2_head_star {p : Char} {m : List Char} (h : (sub2 p m).head? = some '*') :
    m.head? = some '*' := by
  cases m with
  | nil => rw [sub2_nil] at h; exact absurd h (by simp)
  | cons c rest =>
    by_cases hg : c = '*' ∧ p ≠ '*'
    · rw [List.head?_cons, hg.1]
    · rw [sub2_cons_else hg] at h
      rw [List.head?_cons]
      simpa using h

theorem sub2_nostar_id {m : List Char} (hm : '*' ∉ m) : ∀ p, sub2 p m = m := by
  induction m with
  | nil => intro p; rfl
  | cons c rest ih =>
    intro p
    have hc : c ≠ '*' := fun h => hm (h ▸ List.mem_cons_self c rest)
    rw [sub2_cons_else (fun hg => hc hg.1),
      ih (fun h => hm (List.mem_cons_of_mem c h)) c]

theorem sub2_starfree_front : ∀ (a : List Char), '*' ∉ a → ∀ (p : Char) (m : List Char),
    sub2 p (a ++ m) = a ++ sub2 (a.getLastD p) m := by
  intro a
  induction a with
  | nil => intro _ p m; simp [List.getLastD]
  | cons c t ih =>
    intro ha p m
    have hc : c ≠ '*' := fun h => ha (h ▸ List.mem_cons_self c t)
    rw [List.cons_append, sub2_cons_else (fun hg => hc hg.1),
      ih (fun h => ha (List.mem_cons_of_mem c h)) c m, List.getLastD_cons,
      List.cons_append]

theorem sub2_ss (q : Char) (r1 : List Char) :
    sub2 q ('*' :: '*' :: r1) = '*' :: '*' :: sub2 '*' r1 := by
  by_cases hq : q = '*'
  · subst hq
    rw [sub2_cons_else (by simp), sub2_cons_else (by simp)]
  · rw [sub2_cons_look hq (show ('*' :: r1).head? = some '*' from rfl),
      sub2_cons_else (by simp)]

theorem sub2_closefail_shape {x0 : List Char} (h0 : '*' ∉ x0) (r1 : List Char) :
    sub2 '*' (x0 ++ '*' :: '*' :: r1) = x0 ++ '*' :: '*' :: sub2 '*' r1 := by
  rw [sub2_starfree_front x0 h0 '*' _, sub2_ss]

/- #### Pass 1: fixed point and absence of matches in the output -/

theorem sub1_id_of_no_match : ∀ l : List Char, ¬ HasM1 l → sub1 l = l := by
  refine listStrongInd (fun l ih => ?_)
  cases l with
  | nil => intro _; rfl
  | cons c rest =>
    intro h
    have hrest : ¬ HasM1 rest := fun h2 => h (HasM1.there c h2)
    by_cases hg : c = '*' ∧ rest.head? = some '*'
    · obtain ⟨hc, hh⟩ := hg
      subst hc
      cases rest with
      | nil => simp at hh
      | cons e rt =>
        have he : e = '*' := by simpa using hh
        subst he
        cases hf : findClose2 rt with
        | some q =>
          obtain ⟨x, r⟩ := q
          obtain ⟨hsh, hnl, -⟩ := findClose2_some hf
          have : HasM1 ('*' :: '*' :: rt) := by
            rw [hsh]
            exact HasM1.here x r hnl
          exact absurd this h
        | none =>
          rw [sub1_cons_noclose ⟨rfl, (rfl : ('*' :: rt).head? = some '*')⟩ hf, sub1_star_noclose hf,
            ih rt (by simp only [List.length_cons]; omega)
              (fun h2 => hrest (HasM1.there '*' h2))]
    · rw [sub1_cons_else hg, ih rest (by simp only [List.length_cons]; omega) hrest]

theorem sub1_no_match : ∀ l : List Char, ¬ HasM1 (sub1 l) := by
  refine listStrongInd (fun l ih => ?_)
  cases l with
  | nil => exact HasM1_nil
  | cons c rest =>
    by_cases hg : c = '*' ∧ rest.head? = some '*'
    · obtain ⟨hc, hh⟩ := hg
      subst hc
      cases rest with
      | nil => simp at hh
      | cons e rt =>
        have he : e = '*' := by simpa using hh
        subst he
        cases hf : findClose2 rt with
        | some q =>
          obtain ⟨x, r⟩ := q
          obtain ⟨hsh, hnl, hnoss⟩ := findClose2_some hf
          rw [sub1_cons_pos ⟨rfl, (rfl : ('*' :: rt).head? = some '*')⟩ hf]
          intro hm
          have hlen := findClose2_some_len hf
          exact ih r (by simp only [List.length_cons]; omega)
            (HasM1_skip_noss hnoss hm)
        | none =>
          rw [sub1_cons_noclose ⟨rfl, (rfl : ('*' :: rt).head? = some '*')⟩ hf, sub1_star_noclose hf]
          intro hm
          rcases HasM1_cons_inv hm with ⟨-, x, v, heq, hx⟩ | hm2
          · have h2 : sub1 rt = x ++ '*' :: '*' :: v :=
              ((List.cons.injEq _ _ _ _).mp heq).2
            obtain ⟨pp, hp⟩ := findClose2_of_shape hx
            rw [← h2, findClose2_none_sub1 rt hf] at hp
            exact Option.noConfusion hp
          · rcases HasM1_cons_inv hm2 with ⟨-, x, v, heq, hx⟩ | hm3
            · obtain ⟨pp, hp⟩ := findClose2_of_shape (x := '*' :: x) (v := v) (by
                intro hmem
                rcases List.mem_cons.mp hmem with h1 | h1
                · exact absurd h1.symm (by decide)
                · exact hx h1)
              rw [List.cons_append, ← heq, findClose2_none_sub1 rt hf] at hp
              exact Option.noConfusion hp
            · exact ih rt (by simp only [List.length_cons]; omega) hm3
    · rw [sub1_cons_else hg]
      intro hm
      rcases HasM1_cons_inv hm with ⟨hc, x, v, heq, hx⟩ | hm2
      · exact hg ⟨hc, sub1_head_star (by rw [heq]; rfl)⟩
      · exact ih rest (by simp only [List.length_cons]; omega) hm2

/- #### Pass 2: fixed point and absence of matches in the output -/

theorem sub2_id_of_no_match : ∀ l : List Char, ∀ p : Char, ¬ HasM2 p l →
    sub2 p l = l := by
  refine listStrongInd (fun l ih => ?_)
  cases l with
  | nil => intro p _; rfl
  | cons c rest =>
    intro p h
    by_cases hg : c = '*' ∧ p ≠ '*'
    · obtain ⟨hc, hp⟩ := hg
      subst hc
      by_cases hh : rest.head? = some '*'
      · rw [sub2_cons_look hp hh,
          ih rest (by simp only [List.length_cons]; omega) '*'
            (fun h2 => h (HasM2.there p '*' h2))]
      · cases ht : takeToStar rest with
        | none =>
          rw [sub2_cons_nostar hp hh ht,
            ih rest (by simp only [List.length_cons]; omega) '*'
              (fun h2 => h (HasM2.there p '*' h2))]
        | some q =>
          obtain ⟨x, r⟩ := q
          by_cases hr : r.head? = some '*'
          · rw [sub2_cons_closefail hp hh ht hr,
              ih rest (by simp only [List.length_cons]; omega) '*'
                (fun h2 => h (HasM2.there p '*' h2))]
          · obtain ⟨hsh, hs⟩ := takeToStar_some ht
            have hx : x ≠ [] := by
              intro hx
              subst hx
              rw [List.nil_append] at hsh
              exact hh (by rw [hsh]; rfl)
            exact absurd (show HasM2 p ('*' :: rest) by
              rw [hsh]; exact HasM2.here p x r hp hx hs hr) h
    · rw [sub2_cons_else hg,
        ih rest (by simp only [List.length_cons]; omega) c
          (fun h2 => h (HasM2.there p c h2))]

theorem sub2_no_match : ∀ l : List Char, ∀ p : Char, ¬ HasM2 p (sub2 p l) := by
  refine listStrongInd (fun l ih => ?_)
  cases l with
  | nil => intro p; exact HasM2_nil p
  | cons c rest =>
    intro p
    by_cases hg : c = '*' ∧ p ≠ '*'
    · obtain ⟨hc, hp⟩ := hg
      subst hc
      by_cases hh : rest.head? = some '*'
      · rw [sub2_cons_look hp hh]
        intro hm
        rcases HasM2_cons_inv hm with ⟨-, -, x, v, heq, hx, hs, hv⟩ | hm2
        · cases rest with
          | nil => simp at hh
          | cons e rt =>
            have he : e = '*' := by simpa using hh
            subst he
            rw [sub2_cons_else (by simp)] at heq
            cases x with
            | nil => exact hx rfl
            | cons f xt =>
              have hf : f = '*' := by
                have := congrArg List.head? heq.symm
                simpa using this
              exact hs (hf ▸ List.mem_cons_self f xt)
        · exact ih rest (by simp only [List.length_cons]; omega) '*' hm2
      · cases ht : takeToStar rest with
        | none =>
          have hns : '*' ∉ rest := takeToStar_none ht
          rw [sub2_cons_nostar hp hh ht, sub2_nostar_id hns '*']
          intro hm
          rcases HasM2_cons_inv hm with ⟨-, -, x, v, heq, hx, hs, hv⟩ | hm2
          · apply hns
            rw [heq]
            exact List.mem_append_right x (List.mem_cons_self _ _)
          · exact hns (HasM2_mem hm2)
        | some q =>
          obtain ⟨x0, r0⟩ := q
          obtain ⟨hsh, hs0⟩ := takeToStar_some ht
          have hx0 : x0 ≠ [] := by
            intro hx
            subst hx
            rw [List.nil_append] at hsh
            exact hh (by rw [hsh]; rfl)
          by_cases hr : r0.head? = some '*'
          · cases r0 with
            | nil => simp at hr
            | cons e r1 =>
              have he : e = '*' := by simpa using hr
              subst he
              rw [sub2_cons_closefail hp hh ht hr, hsh, sub2_closefail_shape hs0 r1]
              intro hm
              rcases HasM2_cons_inv hm with ⟨-, -, x, v, heq, hx, hs, hv⟩ | hm2
              · obtain ⟨hxx, hbv⟩ := firstStarEq x x0 heq.symm hs hs0
                exact hv (by rw [hbv]; rfl)
              · have hm3 := HasM2_skip x0 hs0 hm2
                rcases HasM2_cons_inv hm3 with ⟨-, -, x, v, heq2, hx, hs2, hv2⟩ | hm4
                · cases x with
                  | nil => exact hx rfl
                  | cons f xt =>
                    have hf : f = '*' := by
                      have := congrArg List.head? heq2.symm
                      simpa using this
                    exact hs2 (hf ▸ List.mem_cons_self f xt)
                · rcases HasM2_cons_inv hm4 with ⟨-, hq, -⟩ | hm5
                  · exact hq rfl
                  · have hlen := takeToStar_some_len ht
                    exact ih r1 (by simp only [List.length_cons] at hlen ⊢; omega)
                      '*' hm5
          · rw [sub2_cons_match hp hh ht hr]
            intro hm
            have hm2 := HasM2_skip x0 hs0 hm
            have hhead : (sub2 '*' r0).head? ≠ some '*' :=
              fun hsome => hr (sub2_head_star hsome)
            have hlen := takeToStar_some_len ht
            exact ih r0 (by simp only [List.length_cons]; omega) '*'
              (HasM2_prev_irrel hhead hm2)
    · rw [sub2_cons_else hg]
      intro hm
      rcases HasM2_cons_inv hm with ⟨hc, hp, -⟩ | hm2
      · exact hg ⟨hc, hp⟩
      · exact ih rest (by simp only [List.length_cons]; omega) c hm2

/- #### Pass 2 reflects double stars with newline-free prefixes -/

theorem sub2_ds_core : ∀ m : List Char, ∀ (p : Char) (x v : List Char),
    NoSS (x ++ ['*']) → '\n' ∉ x → sub2 p m = x ++ '*' :: '*' :: v →
    ∃ x' v', m = x' ++ '*' :: '*' :: v' ∧ '\n' ∉ x' := by
  refine listStrongInd (fun m ih => ?_)
  cases m with
  | nil =>
    intro p x v _ _ heq
    rw [sub2_nil] at heq
    have := congrArg List.length heq
    simp only [List.length_nil, List.length_append, List.length_cons] at this
    omega
  | cons c rest =>
    intro p x v hns hnl heq
    by_cases hg : c = '*' ∧ p ≠ '*'
    · obtain ⟨hc, hp⟩ := hg
      subst hc
      by_cases hh : rest.head? = some '*'
      · cases rest with
        | nil => simp at hh
        | cons e rt =>
          have he : e = '*' := by simpa using hh
          subst he
          exact ⟨[], rt, rfl, by simp⟩
      · cases ht : takeToStar rest with
        | none =>
          have hns2 : '*' ∉ rest := takeToStar_none ht
          rw [sub2_cons_nostar hp hh ht, sub2_nostar_id hns2 '*'] at heq
          exfalso
          cases x with
          | nil =>
            have h2 : rest = '*' :: v := ((List.cons.injEq _ _ _ _).mp heq).2
            exact hns2 (by rw [h2]; exact List.mem_cons_self _ _)
          | cons f xt =>
            have h2 : rest = xt ++ '*' :: '*' :: v :=
              ((List.cons.injEq _ _ _ _).mp heq).2
            exact hns2 (by
              rw [h2]
              exact List.mem_append_right xt (List.mem_cons_self _ _))
        | some q =>
          obtain ⟨x0, r0⟩ := q
          obtain ⟨hsh, hs0⟩ := takeToStar_some ht
          have hx0 : x0 ≠ [] := by
            intro hx
            subst hx
            rw [List.nil_append] at hsh
            exact hh (by rw [hsh]; rfl)
          by_cases hr : r0.head? = some '*'
          · cases r0 with
            | nil => simp at hr
            | cons e r1 =>
              have he : e = '*' := by simpa using hr
              subst he
              rw [sub2_cons_closefail hp hh ht hr, hsh,
                sub2_closefail_shape hs0 r1] at heq
              cases x with
              | nil =>
                exfalso
                have h2 : x0 ++ '*' :: '*' :: sub2 '*' r1 = '*' :: v :=
                  ((List.cons.injEq _ _ _ _).mp heq).2
                cases x0 with
                | nil => exact hx0 rfl
                | cons g x0t =>
                  rw [List.cons_append] at h2
                  have hg2 : g = '*' := ((List.cons.injEq _ _ _ _).mp h2).1
                  exact hs0 (hg2 ▸ List.mem_cons_self g x0t)
              | cons f x2 =>
                have hf : f = '*' := (((List.cons.injEq _ _ _ _).mp heq).1).symm
                subst hf
                have h2 : x0 ++ '*' :: '*' :: sub2 '*' r1 = x2 ++ '*' :: '*' :: v :=
                  ((List.cons.injEq _ _ _ _).mp heq).2
                rcases List.append_eq_append_iff.mp h2 with ⟨e, he1, he2⟩ | ⟨e, he1, he2⟩
                · cases e with
                  | nil =>
                    rw [List.append_nil] at he1
                    refine ⟨'*' :: x0, r1, ?_, ?_⟩
                    · rw [hsh, List.cons_append]
                    · intro hmem
                      rcases List.mem_cons.mp hmem with h3 | h3
                      · exact absurd h3 (by decide)
                      · exact hnl (by rw [← he1] at h3
                                      exact List.mem_cons_of_mem '*' h3)
                  | cons g et =>
                    exfalso
                    have hg2 : g = '*' := (((List.cons.injEq _ _ _ _).mp he2).1).symm
                    subst hg2
                    cases et with
                    | nil =>
                      exact hns ('*' :: x0) [] (by
                        rw [List.cons_append, List.cons_append, he1]
                        simp)
                    | cons k et2 =>
                      have hk : k = '*' := by
                        have h4 := congrArg List.head?
                          (((List.cons.injEq _ _ _ _).mp he2).2)
                        simpa using h4.symm
                      subst hk
                      exact hns ('*' :: x0) (et2 ++ ['*']) (by
                        rw [List.cons_append, List.cons_append, he1]
                        simp)
                · cases e with
                  | nil =>
                    rw [List.append_nil] at he1
                    refine ⟨'*' :: x0, r1, ?_, ?_⟩
                    · rw [hsh, List.cons_append]
                    · intro hmem
                      rcases List.mem_cons.mp hmem with h3 | h3
                      · exact absurd h3 (by decide)
                      · exact hnl (by rw [he1] at h3
                                      exact List.mem_cons_of_mem '*' h3)
                  | cons g et =>
                    exfalso
                    have hg2 : g = '*' := (((List.cons.injEq _ _ _ _).mp he2).1).symm
                    subst hg2
                    exact hs0 (by
                      rw [he1]
                      exact List.mem_append_right x2 (List.mem_cons_self _ _))
          · rw [sub2_cons_match hp hh ht hr] at heq
            rcases List.append_eq_append_iff.mp heq with ⟨e, he1, he2⟩ | ⟨e, he1, he2⟩
            · have hlen := takeToStar_some_len ht
              obtain ⟨x', v', hm', hn'⟩ := ih r0
                (by simp only [List.length_cons]; omega) '*' e v
                (NoSS_append_right (a := x0)
                  (by rw [← List.append_assoc, ← he1]; exact hns))
                (fun hm => hnl (by rw [he1]; exact List.mem_append_right x0 hm))
                he2
              refine ⟨'*' :: x0 ++ '*' :: x', v', ?_, ?_⟩
              · rw [hsh, hm']
                simp only [List.cons_append, List.append_assoc]
              · intro hmem
                rw [List.cons_append, List.mem_cons] at hmem
                rcases hmem with h3 | hmem
                · exact absurd h3 (by decide)
                rw [List.mem_append, List.mem_cons] at hmem
                rcases hmem with h3 | h3 | h3
                · exact hnl (by rw [he1]; exact List.mem_append_left e h3)
                · exact absurd h3 (by decide)
                · exact hn' h3
            · cases e with
              | nil =>
                exfalso
                rw [List.nil_append] at he2
                exact hr (sub2_head_star (by rw [← he2]; rfl))
              | cons g et =>
                exfalso
                have hg2 : g = '*' := (((List.cons.injEq _ _ _ _).mp he2).1).symm
                exact hs0 (by
                  rw [he1]
                  exact List.mem_append_right x (hg2 ▸ List.mem_cons_self g et))
    · rw [sub2_cons_else hg] at heq
      cases x with
      | nil =>
        have hc : c = '*' := ((List.cons.injEq _ _ _ _).mp heq).1
        subst hc
        have h2 : sub2 '*' rest = '*' :: v := ((List.cons.injEq _ _ _ _).mp heq).2
        have hhead : rest.head? = some '*' := sub2_head_star (by rw [h2]; rfl)
        cases rest with
        | nil => simp at hhead
        | cons e rt =>
          have he : e = '*' := by simpa using hhead
          subst he
          exact ⟨[], rt, rfl, by simp⟩
      | cons f x2 =>
        have hf : c = f := ((List.cons.injEq _ _ _ _).mp heq).1
        have h2 : sub2 c rest = x2 ++ '*' :: '*' :: v :=
          ((List.cons.injEq _ _ _ _).mp heq).2
        obtain ⟨x', v', hm', hn'⟩ := ih rest
          (by simp only [List.length_cons]; omega) c x2 v
          (by
            rw [List.cons_append] at hns
            exact NoSS_of_cons hns)
          (fun hm => hnl (List.mem_cons_of_mem f hm)) h2
        refine ⟨c :: x', v', by rw [hm', List.cons_append], ?_⟩
        intro hmem
        rcases List.mem_cons.mp hmem with h3 | h3
        · apply hnl
          rw [List.mem_cons]
          left
          rw [h3]
          exact hf
        · exact hn' h3

theorem sub2_ds_inv {m : List Char} {p : Char} {x v : List Char}
    (heq : sub2 p m = x ++ '*' :: '*' :: v) (hnl : '\n' ∉ x) :
    ∃ x' v', m = x' ++ '*' :: '*' :: v' ∧ '\n' ∉ x' := by
  obtain ⟨x1, v1, h1, hn1, hns1⟩ := dsFirst x (v := v) hnl
  exact sub2_ds_core m p x1 v1 hns1 hn1 (heq.trans h1)

theorem sub2_M1_inv : ∀ m : List Char, ∀ p : Char, HasM1 (sub2 p m) → HasM1 m := by
  refine listStrongInd (fun m ih => ?_)
  cases m with
  | nil =>
    intro p h
    rw [sub2_nil] at h
    exact absurd h HasM1_nil
  | cons c rest =>
    intro p h
    by_cases hg : c = '*' ∧ p ≠ '*'
    · obtain ⟨hc, hp⟩ := hg
      subst hc
      by_cases hh : rest.head? = some '*'
      · cases rest with
        | nil => simp at hh
        | cons e rt =>
          have he : e = '*' := by simpa using hh
          subst he
          rw [sub2_cons_look hp hh, sub2_cons_else (by simp)] at h
          rcases HasM1_cons_inv h with ⟨-, x, v, heq, hx⟩ | h2
          · have h3 : sub2 '*' rt = x ++ '*' :: '*' :: v :=
              ((List.cons.injEq _ _ _ _).mp heq).2
            obtain ⟨x', v', hm', hn'⟩ := sub2_ds_inv h3 hx
            rw [hm']
            exact HasM1.here x' v' hn'
          · rcases HasM1_cons_inv h2 with ⟨-, x, v, heq, hx⟩ | h3
            · obtain ⟨x', v', hm', hn'⟩ := sub2_ds_inv
                (show sub2 '*' rt = ('*' :: x) ++ '*' :: '*' :: v by
                  rw [heq]; rfl)
                (by
                  intro hmem
                  rcases List.mem_cons.mp hmem with h5 | h5
                  · exact absurd h5 (by decide)
                  · exact hx h5)
              rw [hm']
              exact HasM1.here x' v' hn'
            · exact HasM1.there '*' (HasM1.there '*'
                (ih rt (by simp only [List.length_cons]; omega) '*' h3))
      · cases ht : takeToStar rest with
        | none =>
          have hns2 : '*' ∉ rest := takeToStar_none ht
          rw [sub2_cons_nostar hp hh ht, sub2_nostar_id hns2 '*'] at h
          exact h
        | some q =>
          obtain ⟨x0, r0⟩ := q
          obtain ⟨hsh, hs0⟩ := takeToStar_some ht
          have hx0 : x0 ≠ [] := by
            intro hx
            subst hx
            rw [List.nil_append] at hsh
            exact hh (by rw [hsh]; rfl)
          have hlen := takeToStar_some_len ht
          by_cases hr : r0.head? = some '*'
          · cases r0 with
            | nil => simp at hr
            | cons e r1 =>
              have he : e = '*' := by simpa using hr
              subst he
              rw [sub2_cons_closefail hp hh ht hr, hsh,
                sub2_closefail_shape hs0 r1] at h
              rcases HasM1_cons_inv h with ⟨-, x, v, heq, hx⟩ | h2
              · exfalso
                cases x0 with
                | nil => exact hx0 rfl
                | cons g x0t =>
                  rw [List.cons_append] at heq
                  have hg2 : g = '*' := ((List.cons.injEq _ _ _ _).mp heq).1
                  exact hs0 (hg2 ▸ List.mem_cons_self g x0t)
              · have h3 := HasM1_skip_starfree hs0 h2
                rcases HasM1_cons_inv h3 with ⟨-, x, v, heq, hx⟩ | h4
                · have h5 : sub2 '*' r1 = x ++ '*' :: '*' :: v :=
                    ((List.cons.injEq _ _ _ _).mp heq).2
                  obtain ⟨x', v', hm', hn'⟩ := sub2_ds_inv h5 hx
                  rw [hsh, hm']
                  exact HasM1_append_left ('*' :: x0) (HasM1.here x' v' hn')
                · rcases HasM1_cons_inv h4 with ⟨-, x, v, heq, hx⟩ | h5
                  · obtain ⟨x', v', hm', hn'⟩ := sub2_ds_inv
                      (show sub2 '*' r1 = ('*' :: x) ++ '*' :: '*' :: v by
                        rw [heq]; rfl)
                      (by
                        intro hmem
                        rcases List.mem_cons.mp hmem with h6 | h6
                        · exact absurd h6 (by decide)
                        · exact hx h6)
                    rw [hsh, hm']
                    exact HasM1_append_left ('*' :: x0) (HasM1.here x' v' hn')
                  · have h6 := ih r1
                      (by simp only [List.length_cons] at hlen ⊢; omega) '*' h5
                    rw [hsh]
                    have h7 := HasM1_append_left ('*' :: x0 ++ ['*', '*']) h6
                    simpa [List.append_assoc] using h7
          · rw [sub2_cons_match hp hh ht hr] at h
            have h2 := HasM1_skip_starfree hs0 h
            have h3 := ih r0 (by simp only [List.length_cons]; omega) '*' h2
            rw [hsh]
            have h4 := HasM1_append_left ('*' :: x0 ++ ['*']) h3
            simpa [List.append_assoc] using h4
    · rw [sub2_cons_else hg] at h
      rcases HasM1_cons_inv h with ⟨hc, x, v, heq, hx⟩ | h2
      · subst hc
        have hp : p = '*' := by
          by_contra hp
          exact hg ⟨rfl, hp⟩
        subst hp
        have hhead : rest.head? = some '*' := sub2_head_star (by rw [heq]; rfl)
        cases rest with
        | nil => simp at hhead
        | cons e rt =>
          have he : e = '*' := by simpa using hhead
          subst he
          rw [sub2_cons_else (by simp)] at heq
          have h3 : sub2 '*' rt = x ++ '*' :: '*' :: v :=
            ((List.cons.injEq _ _ _ _).mp heq).2
          obtain ⟨x', v', hm', hn'⟩ := sub2_ds_inv h3 hx
          rw [hm']
          exact HasM1.here x' v' hn'
      · exact HasM1.there c (ih rest (by simp only [List.length_cons]; omega) c h2)

/- #### Runs and the collapse passes -/

theorem InfixRun_append_right {d : Char} {K : Nat} {y : List Char} (x : List Char)
    (h : InfixRun d K y) : InfixRun d K (x ++ y) := by
  obtain ⟨a, b, hab⟩ := h
  exact ⟨x ++ a, b, by rw [hab]; simp [List.append_assoc]⟩

theorem InfixRun_append_left {d : Char} {K : Nat} {x : List Char} (y : List Char)
    (h : InfixRun d K x) : InfixRun d K (x ++ y) := by
  obtain ⟨a, b, hab⟩ := h
  exact ⟨a, b ++ y, by rw [hab]; simp [List.append_assoc]⟩

theorem takeWhile_eq_replicate (c : Char) : ∀ l : List Char,
    l.takeWhile (fun b => b == c) =
      List.replicate (l.takeWhile (fun b => b == c)).length c := by
  intro l
  induction l with
  | nil => rfl
  | cons e t ih =>
    by_cases he : e = c
    · subst he
      rw [List.takeWhile_cons_of_pos (by simp), List.length_cons,
        List.replicate_succ]
      rw [← ih]
    · rw [List.takeWhile_cons_of_neg (by simp [he])]
      rfl

theorem cons_eq_replicate_append (c : Char) (rest : List Char) :
    c :: rest = List.replicate ((rest.takeWhile (fun b => b == c)).length + 1) c ++
      rest.dropWhile (fun b => b == c) := by
  rw [List.replicate_succ, List.cons_append]
  congr 1
  rw [← takeWhile_eq_replicate]
  exact (List.takeWhile_append_dropWhile _ _).symm

theorem dropWhile_head_not (q : Char → Bool) : ∀ (l : List Char) {e : Char},
    (l.dropWhile q).head? = some e → q e = false := by
  intro l
  induction l with
  | nil => intro e h; simp at h
  | cons c t ih =>
    intro e h
    by_cases hc : q c
    · rw [List.dropWhile_cons_of_pos hc] at h
      exact ih h
    · rw [List.dropWhile_cons_of_neg hc] at h
      rw [List.head?_cons, Option.some.injEq] at h
      rw [← h]
      simpa using hc

theorem collapse_head (d : Char) (k : Nat) (hk : 1 ≤ k) (m : List Char) :
    (collapse d k m).head? = m.head? := by
  cases m with
  | nil => rfl
  | cons c rest =>
    rw [collapse_cons]
    by_cases hc : c = d ∧ k + 1 ≤ (rest.takeWhile (fun b => b == c)).length + 1
    · rw [if_pos hc]
      cases k with
      | zero => exact absurd hk (by omega)
      | succ k2 =>
        rw [List.replicate_succ, List.cons_append, List.head?_cons, List.head?_cons]
    · rw [if_neg hc, List.replicate_succ, List.cons_append, List.head?_cons,
        List.head?_cons]

theorem rb_replicate_append {d c : Char} {K j : Nat} {y : List Char} (hK : 1 ≤ K)
    (hc : c = d → j < K ∧ y.head? ≠ some d) (hy : ¬ InfixRun d K y) :
    ¬ InfixRun d K (List.replicate j c ++ y) := by
  rintro ⟨a, b, hab⟩
  rcases List.append_eq_append_iff.mp hab with ⟨e, he1, he2⟩ | ⟨e, he1, he2⟩
  · exact hy ⟨e, b, he2⟩
  · cases e with
    | nil =>
      rw [List.nil_append] at he2
      exact hy ⟨[], b, by rw [List.nil_append]; exact he2.symm⟩
    | cons e0 et =>
      have hmem : ∀ z ∈ e0 :: et, z = c := by
        intro z hz
        have hz2 : z ∈ List.replicate j c := by
          rw [he1]
          exact List.mem_append_right a hz
        exact List.eq_of_mem_replicate hz2
      have he0 : e0 = c := hmem e0 (List.mem_cons_self _ _)
      obtain ⟨K2, hK2⟩ : ∃ K2, K = K2 + 1 := ⟨K - 1, by omega⟩
      have hd0 : c = d := by
        have h3 := congrArg List.head? he2
        rw [hK2] at h3
        simp only [List.replicate_succ, List.cons_append, List.head?_cons,
          Option.some.injEq] at h3
        rw [← he0]
        exact h3.symm
      obtain ⟨hjK, hyh⟩ := hc hd0
      have hee : e0 :: et = List.replicate (e0 :: et).length d := by
        have h4 := List.eq_replicate_of_mem hmem
        rw [hd0] at h4
        exact h4
      have hlen : (e0 :: et).length ≤ j := by
        have h5 := congrArg List.length he1
        simp only [List.length_replicate, List.length_append, List.length_cons]
          at h5 ⊢
        omega
      rw [hee] at he2
      have hsplit : List.replicate K d =
          List.replicate (e0 :: et).length d ++
            List.replicate (K - (e0 :: et).length) d := by
        rw [← List.replicate_add]
        congr 1
        omega
      rw [hsplit, List.append_assoc] at he2
      have hcancel := List.append_cancel_left he2
      obtain ⟨s, hs⟩ : ∃ s, K - (e0 :: et).length = s + 1 :=
        ⟨K - (e0 :: et).length - 1, by omega⟩
      rw [hs] at hcancel
      apply hyh
      rw [← hcancel]
      rw [List.replicate_succ, List.cons_append, List.head?_cons]

theorem collapse_id (d : Char) (k : Nat) : ∀ m : List Char,
    ¬ InfixRun d (k + 1) m → collapse d k m = m := by
  refine listStrongInd (fun m ih => ?_)
  cases m with
  | nil => intro _; rfl
  | cons c rest =>
    intro h
    rw [collapse_cons]
    by_cases hc : c = d ∧ k + 1 ≤ (rest.takeWhile (fun b => b == c)).length + 1
    · exfalso
      apply h
      refine ⟨[], List.replicate ((rest.takeWhile (fun b => b == c)).length + 1 -
        (k + 1)) c ++ rest.dropWhile (fun b => b == c), ?_⟩
      rw [List.nil_append, ← hc.1, ← List.append_assoc, ← List.replicate_add]
      have h2 : k + 1 + ((rest.takeWhile (fun b => b == c)).length + 1 - (k + 1)) =
          (rest.takeWhile (fun b => b == c)).length + 1 := by
        have := hc.2
        omega
      rw [h2]
      exact cons_eq_replicate_append c rest
    · rw [if_neg hc]
      have hdrop : ¬ InfixRun d (k + 1) (rest.dropWhile (fun b => b == c)) := by
        intro hinf
        obtain ⟨a, b, hab⟩ := hinf
        apply h
        refine ⟨List.replicate ((rest.takeWhile (fun b => b == c)).length + 1) c ++ a,
          b, ?_⟩
        rw [cons_eq_replicate_append c rest, hab]
        simp [List.append_assoc]
      rw [ih (rest.dropWhile (fun b => b == c))
        (by
          have hs : (rest.dropWhile (fun b => b == c)).length ≤ rest.length :=
            (List.dropWhile_suffix _).length_le
          simp only [List.length_cons]
          omega) hdrop]
      exact (cons_eq_replicate_append c rest).symm

theorem collapse_bound (d : Char) (k : Nat) (hk : 1 ≤ k) : ∀ m : List Char,
    ¬ InfixRun d (k + 1) (collapse d k m) := by
  refine listStrongInd (fun m ih => ?_)
  cases m with
  | nil =>
    rintro ⟨a, b, hab⟩
    rw [collapse_nil] at hab
    have := congrArg List.length hab
    simp only [List.length_nil, List.length_append, List.length_replicate] at this
    omega
  | cons c rest =>
    rw [collapse_cons]
    refine rb_replicate_append (by omega) ?_
      (ih (rest.dropWhile (fun b => b == c))
        (by
          have hs : (rest.dropWhile (fun b => b == c)).length ≤ rest.length :=
            (List.dropWhile_suffix _).length_le
          simp only [List.length_cons]
          omega))
    intro hcd
    constructor
    · split_ifs with hcond
      · omega
      · have h2 : ¬ (k + 1 ≤ (rest.takeWhile (fun b => b == c)).length + 1) :=
          fun h3 => hcond ⟨hcd, h3⟩
        omega
    · rw [collapse_head d k hk]
      intro hhead
      have h2 := dropWhile_head_not (fun b => b == c) rest hhead
      simp [hcd] at h2

theorem collapse_preserves {d2 : Char} {K : Nat} (d : Char) (k : Nat) (hk : 1 ≤ k)
    (hd : d2 ≠ d) (hK : 1 ≤ K) : ∀ m : List Char,
    ¬ InfixRun d2 K m → ¬ InfixRun d2 K (collapse d k m) := by
  refine listStrongInd (fun m ih => ?_)
  cases m with
  | nil => intro h; rw [collapse_nil]; exact h
  | cons c rest =>
    intro h
    rw [collapse_cons]
    have hsub : ¬ InfixRun d2 K (rest.dropWhile (fun b => b == c)) := by
      intro hinf
      obtain ⟨a, b, hab⟩ := hinf
      apply h
      refine ⟨List.replicate ((rest.takeWhile (fun b => b == c)).length + 1) c ++ a,
        b, ?_⟩
      rw [cons_eq_replicate_append c rest, hab]
      simp [List.append_assoc]
    refine rb_replicate_append hK ?_
      (ih (rest.dropWhile (fun b => b == c))
        (by
          have hs : (rest.dropWhile (fun b => b == c)).length ≤ rest.length :=
            (List.dropWhile_suffix _).length_le
          simp only [List.length_cons]
          omega) hsub)
    intro hcd
    constructor
    · split_ifs with hcond
      · exact absurd hcond.1 (by rw [hcd]; exact hd)
      · by_contra hge
        apply h
        refine ⟨[], List.replicate ((rest.takeWhile (fun b => b == c)).length + 1 - K)
          c ++ rest.dropWhile (fun b => b == c), ?_⟩
        rw [List.nil_append, ← hcd, ← List.append_assoc, ← List.replicate_add]
        have h2 : K + ((rest.takeWhile (fun b => b == c)).length + 1 - K) =
            (rest.takeWhile (fun b => b == c)).length + 1 := by omega
        rw [h2]
        exact cons_eq_replicate_append c rest
    · rw [collapse_head d k hk]
      intro hhead
      have h2 := dropWhile_head_not (fun b => b == c) rest hhead
      simp [hcd] at h2

/- #### Matches against star runs, and collapse reflecting match shapes -/

theorem M2_replicate_star {w : List Char} : ∀ s : Nat, ∀ p : Char, 1 ≤ s →
    HasM2 p (List.replicate s '*' ++ w) →
    (s = 1 ∧ p ≠ '*' ∧ ∃ x v, w = x ++ '*' :: v ∧ x ≠ [] ∧ '*' ∉ x ∧
      v.head? ≠ some '*') ∨ HasM2 '*' w := by
  intro s
  induction s with
  | zero => intro p h0; exact absurd h0 (by omega)
  | succ s ih =>
    intro p _ h
    rw [List.replicate_succ, List.cons_append] at h
    rcases HasM2_cons_inv h with ⟨-, hp, x, v, heq, hx, hs, hv⟩ | h2
    · cases s with
      | zero =>
        rw [List.replicate_zero, List.nil_append] at heq
        exact Or.inl ⟨rfl, hp, x, v, heq, hx, hs, hv⟩
      | succ s2 =>
        exfalso
        cases x with
        | nil => exact hx rfl
        | cons f xt =>
          have hf : f = '*' := by
            have h3 := congrArg List.head? heq
            simp only [List.replicate_succ, List.cons_append, List.head?_cons,
              Option.some.injEq] at h3
            exact h3.symm
          exact hs (hf ▸ List.mem_cons_self f xt)
    · rcases Nat.eq_zero_or_pos s with h0 | hs2
      · subst h0
        rw [List.replicate_zero, List.nil_append] at h2
        exact Or.inr h2
      · rcases ih '*' hs2 h2 with ⟨-, hp2, -⟩ | h3
        · exact absurd rfl hp2
        · exact Or.inr h3

theorem M1_replicate_star {w : List Char} (hw : w.head? ≠ some '*') : ∀ s : Nat,
    HasM1 (List.replicate s '*' ++ w) →
    4 ≤ s ∨ (2 ≤ s ∧ ∃ wx wv, w = wx ++ '*' :: '*' :: wv ∧ '\n' ∉ wx) ∨
      HasM1 w := by
  intro s
  induction s with
  | zero =>
    intro h
    rw [List.replicate_zero, List.nil_append] at h
    exact Or.inr (Or.inr h)
  | succ s ih =>
    intro h
    rw [List.replicate_succ, List.cons_append] at h
    rcases HasM1_cons_inv h with ⟨-, x, v, heq, hx⟩ | h2
    · cases s with
      | zero =>
        rw [List.replicate_zero, List.nil_append] at heq
        exact absurd (by rw [heq]; rfl) hw
      | succ s1 =>
        have heq2 : List.replicate s1 '*' ++ w = x ++ '*' :: '*' :: v := by
          have h3 := heq
          rw [List.replicate_succ, List.cons_append] at h3
          exact ((List.cons.injEq _ _ _ _).mp h3).2
        rcases List.append_eq_append_iff.mp heq2 with ⟨e, he1, he2⟩ | ⟨e, he1, he2⟩
        · refine Or.inr (Or.inl ⟨by omega, e, v, he2, ?_⟩)
          intro hm
          exact hx (by rw [he1]; exact List.mem_append_right _ hm)
        · cases e with
          | nil =>
            rw [List.nil_append] at he2
            exact absurd (by rw [← he2]; rfl) hw
          | cons g et =>
            have hg : g = '*' := by
              have h4 : g ∈ List.replicate s1 '*' := by
                rw [he1]
                exact List.mem_append_right x (List.mem_cons_self _ _)
              exact List.eq_of_mem_replicate h4
            subst hg
            cases et with
            | nil =>
              rw [List.cons_append, List.nil_append] at he2
              have h5 : '*' :: v = w := ((List.cons.injEq _ _ _ _).mp he2).2
              exact absurd (by rw [← h5]; rfl) hw
            | cons k2 et2 =>
              have hk2 : k2 = '*' := by
                have h4 : k2 ∈ List.replicate s1 '*' := by
                  rw [he1]
                  exact List.mem_append_right x
                    (List.mem_cons_of_mem '*' (List.mem_cons_self _ _))
                exact List.eq_of_mem_replicate h4
              subst hk2
              left
              have h5 := congrArg List.length he1
              simp only [List.length_replicate, List.length_append,
                List.length_cons] at h5
              omega
    · rcases ih h2 with h3 | ⟨h3, hrest⟩ | h3
      · exact Or.inl (by omega)
      · exact Or.inr (Or.inl ⟨by omega, hrest⟩)
      · exact Or.inr (Or.inr h3)

theorem collapse_ds (d : Char) (k : Nat) (hd : d ≠ '*') (hk : 1 ≤ k) :
    ∀ m : List Char, ∀ wx wv : List Char,
    collapse d k m = wx ++ '*' :: '*' :: wv → '\n' ∉ wx →
    ∃ wx2 wv2, m = wx2 ++ '*' :: '*' :: wv2 ∧ '\n' ∉ wx2 := by
  refine listStrongInd (fun m ih => ?_)
  cases m with
  | nil =>
    intro wx wv heq _
    rw [collapse_nil] at heq
    have := congrArg List.length heq
    simp only [List.length_nil, List.length_append, List.length_cons] at this
    omega
  | cons c rest =>
    intro wx wv heq hnl
    rw [collapse_cons] at heq
    by_cases hc : c = '*'
    · subst hc
      rw [if_neg (fun h2 => hd h2.1.symm)] at heq
      rcases List.append_eq_append_iff.mp heq with ⟨e, he1, he2⟩ | ⟨e, he1, he2⟩
      · obtain ⟨wx2, wv2, hm2, hn2⟩ := ih (rest.dropWhile (fun b => b == '*'))
          (by
            have hs : (rest.dropWhile (fun b => b == '*')).length ≤ rest.length :=
              (List.dropWhile_suffix _).length_le
            simp only [List.length_cons]
            omega) e wv he2
          (fun hm => hnl (by rw [he1]; exact List.mem_append_right _ hm))
        refine ⟨List.replicate ((rest.takeWhile (fun b => b == '*')).length + 1) '*'
          ++ wx2, wv2, ?_, ?_⟩
        · rw [cons_eq_replicate_append '*' rest, hm2]
          simp [List.append_assoc]
        · intro hm
          rcases List.mem_append.mp hm with h3 | h3
          · exact absurd (List.eq_of_mem_replicate h3) (by decide)
          · exact hn2 h3
      · cases e with
        | nil =>
          exfalso
          rw [List.nil_append] at he2
          have hhead : (rest.dropWhile (fun b => b == '*')).head? = some '*' := by
            rw [← collapse_head d k hk, ← he2]
            rfl
          have h3 := dropWhile_head_not (fun b => b == '*') rest hhead
          simp at h3
        | cons g et =>
          have hg : g = '*' := by
            have h4 : g ∈ List.replicate
                ((rest.takeWhile (fun b => b == '*')).length + 1) '*' := by
              rw [he1]
              exact List.mem_append_right wx (List.mem_cons_self _ _)
            exact List.eq_of_mem_replicate h4
          subst hg
          cases et with
          | nil =>
            exfalso
            rw [List.cons_append, List.nil_append] at he2
            have h5 : '*' :: wv =
                collapse d k (rest.dropWhile (fun b => b == '*')) :=
              ((List.cons.injEq _ _ _ _).mp he2).2
            have hhead : (rest.dropWhile (fun b => b == '*')).head? = some '*' := by
              rw [← collapse_head d k hk, ← h5]
              rfl
            have h3 := dropWhile_head_not (fun b => b == '*') rest hhead
            simp at h3
          | cons k2 et2 =>
            have hk2 : k2 = '*' := by
              have h4 : k2 ∈ List.replicate
                  ((rest.takeWhile (fun b => b == '*')).length + 1) '*' := by
                rw [he1]
                exact List.mem_append_right wx
                  (List.mem_cons_of_mem '*' (List.mem_cons_self _ _))
              exact List.eq_of_mem_replicate h4
            subst hk2
            refine ⟨wx, et2 ++ rest.dropWhile (fun b => b == '*'), ?_, hnl⟩
            rw [cons_eq_replicate_append '*' rest, he1]
            simp [List.append_assoc]
    · have hj : 1 ≤ (if c = d ∧ k + 1 ≤
          (rest.takeWhile (fun b => b == c)).length + 1 then k
          else (rest.takeWhile (fun b => b == c)).length + 1) := by
        split_ifs <;> omega
      rcases List.append_eq_append_iff.mp heq with ⟨e, he1, he2⟩ | ⟨e, he1, he2⟩
      · have hcw : c ∈ wx := by
          rw [he1]
          exact List.mem_append_left e (List.mem_replicate.mpr ⟨by omega, rfl⟩)
        have hcn : c ≠ '\n' := fun hcc => hnl (hcc ▸ hcw)
        obtain ⟨wx2, wv2, hm2, hn2⟩ := ih (rest.dropWhile (fun b => b == c))
          (by
            have hs : (rest.dropWhile (fun b => b == c)).length ≤ rest.length :=
              (List.dropWhile_suffix _).length_le
            simp only [List.length_cons]
            omega) e wv he2
          (fun hm => hnl (by rw [he1]; exact List.mem_append_right _ hm))
        refine ⟨List.replicate ((rest.takeWhile (fun b => b == c)).length + 1) c
          ++ wx2, wv2, ?_, ?_⟩
        · rw [cons_eq_replicate_append c rest, hm2]
          simp [List.append_assoc]
        · intro hm
          rcases List.mem_append.mp hm with h3 | h3
          · exact hcn ((List.eq_of_mem_replicate h3).symm ▸ rfl)
          · exact hn2 h3
      · cases e with
        | nil =>
          rw [List.append_nil] at he1
          rw [List.nil_append] at he2
          have hcn : c ≠ '\n' := by
            intro hcc
            apply hnl
            rw [← he1]
            exact hcc ▸ List.mem_replicate.mpr ⟨by omega, rfl⟩
          obtain ⟨wx2, wv2, hm2, hn2⟩ := ih (rest.dropWhile (fun b => b == c))
            (by
              have hs : (rest.dropWhile (fun b => b == c)).length ≤ rest.length :=
                (List.dropWhile_suffix _).length_le
              simp only [List.length_cons]
              omega) [] wv he2.symm (by simp)
          refine ⟨List.replicate ((rest.takeWhile (fun b => b == c)).length + 1) c
            ++ wx2, wv2, ?_, ?_⟩
          · rw [cons_eq_replicate_append c rest, hm2]
            simp [List.append_assoc]
          · intro hm
            rcases List.mem_append.mp hm with h3 | h3
            · exact hcn ((List.eq_of_mem_replicate h3).symm ▸ rfl)
            · exact hn2 h3
        | cons g et =>
          exfalso
          have hg : g = c := by
            have h4 : g ∈ List.replicate (if c = d ∧ k + 1 ≤
                (rest.takeWhile (fun b => b == c)).length + 1 then k
                else (rest.takeWhile (fun b => b == c)).length + 1) c := by
              rw [he1]
              exact List.mem_append_right wx (List.mem_cons_self _ _)
            exact List.eq_of_mem_replicate h4
          have hg2 : g = '*' := (((List.cons.injEq _ _ _ _).mp he2).1).symm
          exact hc (hg.symm.trans hg2)

theorem collapse_star_drop {d : Char} {k : Nat} (hd : d ≠ '*') (hk : 1 ≤ k)
    {dr v : List Char} (he : collapse d k dr = '*' :: v)
    (hv : v.head? ≠ some '*') : ∃ dr2, dr = '*' :: dr2 ∧ dr2.head? ≠ some '*' := by
  obtain ⟨dr2, hdr2⟩ : ∃ dr2, dr = '*' :: dr2 := by
    have hhead : dr.head? = some '*' := by rw [← collapse_head d k hk, he]; rfl
    cases dr with
    | nil => simp at hhead
    | cons g dr2 =>
      rw [List.head?_cons, Option.some.injEq] at hhead
      exact ⟨dr2, by rw [hhead]⟩
  subst hdr2
  rw [collapse_cons, if_neg (fun h2 => hd h2.1.symm)] at he
  rw [List.replicate_succ, List.cons_append] at he
  have h2 : List.replicate (dr2.takeWhile (fun b => b == '*')).length '*' ++
      collapse d k (dr2.dropWhile (fun b => b == '*')) = v :=
    ((List.cons.injEq _ _ _ _).mp he).2
  have hn2 : (dr2.takeWhile (fun b => b == '*')).length = 0 := by
    by_contra hn
    obtain ⟨n3, hn3⟩ : ∃ n3, (dr2.takeWhile (fun b => b == '*')).length = n3 + 1 :=
      ⟨(dr2.takeWhile (fun b => b == '*')).length - 1, by omega⟩
    apply hv
    rw [← h2, hn3, List.replicate_succ, List.cons_append]
    rfl
  refine ⟨dr2, rfl, ?_⟩
  intro hh
  cases dr2 with
  | nil => simp at hh
  | cons g dr3 =>
    rw [List.head?_cons, Option.some.injEq] at hh
    rw [List.takeWhile_cons_of_pos (by simp [hh])] at hn2
    simp at hn2

theorem collapse_m2seg (d : Char) (k : Nat) (hd : d ≠ '*') (hk : 1 ≤ k) :
    ∀ m : List Char, ∀ x v : List Char,
    collapse d k m = x ++ '*' :: v → x ≠ [] → '*' ∉ x → v.head? ≠ some '*' →
    ∃ x2 v2, m = x2 ++ '*' :: v2 ∧ x2 ≠ [] ∧ '*' ∉ x2 ∧ v2.head? ≠ some '*' := by
  refine listStrongInd (fun m ih => ?_)
  cases m with
  | nil =>
    intro x v heq hx _ _
    rw [collapse_nil] at heq
    have := congrArg List.length heq
    simp only [List.length_nil, List.length_append, List.length_cons] at this
    omega
  | cons c rest =>
    intro x v heq hx hs hv
    rw [collapse_cons] at heq
    by_cases hc : c = '*'
    · exfalso
      subst hc
      rw [if_neg (fun h2 => hd h2.1.symm)] at heq
      have hhead := congrArg List.head? heq
      rw [List.replicate_succ, List.cons_append, List.head?_cons] at hhead
      cases x with
      | nil => exact hx rfl
      | cons f xt =>
        rw [List.cons_append, List.head?_cons, Option.some.injEq] at hhead
        exact hs (hhead ▸ List.mem_cons_self f xt)
    · have hrepl : '*' ∉ List.replicate (if c = d ∧ k + 1 ≤
          (rest.takeWhile (fun b => b == c)).length + 1 then k
          else (rest.takeWhile (fun b => b == c)).length + 1) c :=
        fun hm => hc (List.eq_of_mem_replicate hm).symm
      rcases List.append_eq_append_iff.mp heq with ⟨e, he1, he2⟩ | ⟨e, he1, he2⟩
      · cases e with
        | nil =>
          rw [List.nil_append] at he2
          obtain ⟨dr2, hdr2, hdh⟩ := collapse_star_drop hd hk he2 hv
          refine ⟨List.replicate ((rest.takeWhile (fun b => b == c)).length + 1) c,
            dr2, ?_, ?_, ?_, hdh⟩
          · rw [cons_eq_replicate_append c rest, hdr2]
          · intro hnil
            have := congrArg List.length hnil
            simp only [List.length_replicate, List.length_nil] at this
            omega
          · exact fun hm => hc (List.eq_of_mem_replicate hm).symm
        | cons g et =>
          obtain ⟨x2, v2, hm2, hx2, hs2, hv2⟩ := ih
            (rest.dropWhile (fun b => b == c))
            (by
              have hsl : (rest.dropWhile (fun b => b == c)).length ≤ rest.length :=
                (List.dropWhile_suffix _).length_le
              simp only [List.length_cons]
              omega) (g :: et) v he2 (by simp)
            (fun hm => hs (by rw [he1]; exact List.mem_append_right _ hm)) hv
          refine ⟨List.replicate ((rest.takeWhile (fun b => b == c)).length + 1) c
            ++ x2, v2, ?_, ?_, ?_, hv2⟩
          · rw [cons_eq_replicate_append c rest, hm2]
            simp [List.append_assoc]
          · intro hnil
            have := congrArg List.length hnil
            simp only [List.length_append, List.length_replicate,
              List.length_nil] at this
            omega
          · intro hm
            rcases List.mem_append.mp hm with h3 | h3
            · exact hc (List.eq_of_mem_replicate h3).symm
            · exact hs2 h3
      · cases e with
        | nil =>
          rw [List.nil_append] at he2
          obtain ⟨dr2, hdr2, hdh⟩ := collapse_star_drop hd hk he2.symm hv
          refine ⟨List.replicate ((rest.takeWhile (fun b => b == c)).length + 1) c,
            dr2, ?_, ?_, ?_, hdh⟩
          · rw [cons_eq_replicate_append c rest, hdr2]
          · intro hnil
            have := congrArg List.length hnil
            simp only [List.length_replicate, List.length_nil] at this
            omega
          · exact fun hm => hc (List.eq_of_mem_replicate hm).symm
        | cons g et =>
          exfalso
          have hg : g = c := by
            have h4 : g ∈ List.replicate (if c = d ∧ k + 1 ≤
                (rest.takeWhile (fun b => b == c)).length + 1 then k
                else (rest.takeWhile (fun b => b == c)).length + 1) c := by
              rw [he1]
              exact List.mem_append_right x (List.mem_cons_self _ _)
            exact List.eq_of_mem_replicate h4
          have hg2 : g = '*' := (((List.cons.injEq _ _ _ _).mp he2).1).symm
          exact hc (hg.symm.trans hg2)

theorem getLastD_replicate (a q : Char) : ∀ n : Nat, 1 ≤ n →
    (List.replicate n a).getLastD q = a := by
  intro n
  induction n generalizing q with
  | zero => intro h0; exact absurd h0 (by omega)
  | succ n ih =>
    intro _
    rw [List.replicate_succ, List.getLastD_cons]
    rcases Nat.eq_zero_or_pos n with h0 | hn
    · subst h0; rfl
    · exact ih a hn

theorem collapse_M1_inv (d : Char) (k : Nat) (hd : d ≠ '*') (hk : 1 ≤ k) :
    ∀ m : List Char, HasM1 (collapse d k m) → HasM1 m := by
  refine listStrongInd (fun m ih => ?_)
  cases m with
  | nil => intro h; rw [collapse_nil] at h; exact absurd h HasM1_nil
  | cons c rest =>
    intro h
    rw [collapse_cons] at h
    by_cases hc : c = '*'
    · subst hc
      rw [if_neg (fun h2 => hd h2.1.symm)] at h
      have hw : (collapse d k (rest.dropWhile (fun b => b == '*'))).head? ≠
          some '*' := by
        rw [collapse_head d k hk]
        intro hh
        have h2 := dropWhile_head_not (fun b => b == '*') rest hh
        simp at h2
      rcases M1_replicate_star hw _ h with h4 | ⟨h2le, wx, wv, hww, hwn⟩ | hcol
      · rw [cons_eq_replicate_append '*' rest]
        obtain ⟨n4, hn4⟩ : ∃ n4,
            (rest.takeWhile (fun b => b == '*')).length + 1 = n4 + 4 :=
          ⟨(rest.takeWhile (fun b => b == '*')).length + 1 - 4, by omega⟩
        rw [hn4, Nat.add_comm n4 4, List.replicate_add]
        have h6 : (List.replicate 4 '*' ++ List.replicate n4 '*') ++
            rest.dropWhile (fun b => b == '*') =
            '*' :: '*' :: ([] ++ '*' :: '*' ::
              (List.replicate n4 '*' ++ rest.dropWhile (fun b => b == '*'))) := by
          simp [List.append_assoc, List.replicate_succ]
        rw [h6]
        exact HasM1.here [] _ (by simp)
      · obtain ⟨wx2, wv2, hm2, hn2⟩ := collapse_ds d k hd hk
          (rest.dropWhile (fun b => b == '*')) wx wv hww hwn
        rw [cons_eq_replicate_append '*' rest, hm2]
        obtain ⟨n2, hn2e⟩ : ∃ n2,
            (rest.takeWhile (fun b => b == '*')).length + 1 = n2 + 2 :=
          ⟨(rest.takeWhile (fun b => b == '*')).length + 1 - 2, by omega⟩
        rw [hn2e, Nat.add_comm n2 2, List.replicate_add]
        have h6 : (List.replicate 2 '*' ++ List.replicate n2 '*') ++
            (wx2 ++ '*' :: '*' :: wv2) =
            '*' :: '*' :: ((List.replicate n2 '*' ++ wx2) ++ '*' :: '*' :: wv2) := by
          simp [List.append_assoc, List.replicate_succ]
        rw [h6]
        refine HasM1.here _ wv2 ?_
        intro hm
        rcases List.mem_append.mp hm with h7 | h7
        · exact absurd (List.eq_of_mem_replicate h7) (by decide)
        · exact hn2 h7
      · have h8 := ih (rest.dropWhile (fun b => b == '*'))
          (by
            have hsl : (rest.dropWhile (fun b => b == '*')).length ≤ rest.length :=
              (List.dropWhile_suffix _).length_le
            simp only [List.length_cons]
            omega) hcol
        rw [cons_eq_replicate_append '*' rest]
        exact HasM1_append_left _ h8
    · have h2 := HasM1_skip_starfree
        (fun hm => hc (List.eq_of_mem_replicate hm).symm) h
      have h3 := ih (rest.dropWhile (fun b => b == c))
        (by
          have hsl : (rest.dropWhile (fun b => b == c)).length ≤ rest.length :=
            (List.dropWhile_suffix _).length_le
          simp only [List.length_cons]
          omega) h2
      rw [cons_eq_replicate_append c rest]
      exact HasM1_append_left _ h3

theorem collapse_M2_inv (d : Char) (k : Nat) (hd : d ≠ '*') (hk : 1 ≤ k) :
    ∀ m : List Char, ∀ p : Char, HasM2 p (collapse d k m) → HasM2 p m := by
  refine listStrongInd (fun m ih => ?_)
  cases m with
  | nil => intro p h; rw [collapse_nil] at h; exact absurd h (HasM2_nil p)
  | cons c rest =>
    intro p h
    rw [collapse_cons] at h
    by_cases hc : c = '*'
    · subst hc
      rw [if_neg (fun h2 => hd h2.1.symm)] at h
      rcases M2_replicate_star ((rest.takeWhile (fun b => b == '*')).length + 1) p
          (by omega) h with ⟨h1eq, hp, x, v, hww, hx, hs, hv⟩ | hcol
      · obtain ⟨x2, v2, hm2, hx2, hs2, hv2⟩ := collapse_m2seg d k hd hk
          (rest.dropWhile (fun b => b == '*')) x v hww hx hs hv
        rw [cons_eq_replicate_append '*' rest, hm2, h1eq]
        exact HasM2.here p x2 v2 hp hx2 hs2 hv2
      · have h3 := ih (rest.dropWhile (fun b => b == '*'))
          (by
            have hsl : (rest.dropWhile (fun b => b == '*')).length ≤ rest.length :=
              (List.dropWhile_suffix _).length_le
            simp only [List.length_cons]
            omega) '*' hcol
        rw [cons_eq_replicate_append '*' rest]
        exact HasM2_unskip_star p h3 _ (by omega)
    · have hrepl : '*' ∉ List.replicate (if c = d ∧ k + 1 ≤
          (rest.takeWhile (fun b => b == c)).length + 1 then k
          else (rest.takeWhile (fun b => b == c)).length + 1) c :=
        fun hm => hc (List.eq_of_mem_replicate hm).symm
      have h2 := HasM2_skip _ hrepl h
      rw [getLastD_replicate c p _ (by split_ifs <;> omega)] at h2
      have h3 := ih (rest.dropWhile (fun b => b == c))
        (by
          have hsl : (rest.dropWhile (fun b => b == c)).length ≤ rest.length :=
            (List.dropWhile_suffix _).length_le
          simp only [List.length_cons]
          omega) c h2
      rw [cons_eq_replicate_append c rest]
      refine HasM2_unskip _ (fun hm => hc (List.eq_of_mem_replicate hm).symm) ?_
      rw [getLastD_replicate c p _ (by omega)]
      exact h3

/- #### The trailing strip -/

theorem ws_not_star (c : Char) (h : isPyWS c = true) : c ≠ '*' := by
  intro hc
  subst hc
  exact absurd h (by decide)

theorem mem_takeWhile_ws : ∀ (l : List Char) (c : Char),
    c ∈ l.takeWhile isPyWS → isPyWS c = true := by
  intro l
  induction l with
  | nil => intro c hc; simp at hc
  | cons e t ih =>
    intro c hc
    by_cases he : isPyWS e
    · rw [List.takeWhile_cons_of_pos he] at hc
      rcases List.mem_cons.mp hc with h1 | h1
      · rw [h1]; exact he
      · exact ih c h1
    · rw [List.takeWhile_cons_of_neg he] at hc
      simp at hc

theorem pyStrip_split (m : List Char) : m.dropWhile isPyWS =
    pyStrip m ++ ((m.dropWhile isPyWS).reverse.takeWhile isPyWS).reverse := by
  have h2 : (m.dropWhile isPyWS).reverse =
      (m.dropWhile isPyWS).reverse.takeWhile isPyWS ++
        (m.dropWhile isPyWS).reverse.dropWhile isPyWS :=
    (List.takeWhile_append_dropWhile _ _).symm
  have h4 := congrArg List.reverse h2
  rw [List.reverse_reverse, List.reverse_append] at h4
  exact h4

theorem pyStrip_decomp (m : List Char) : ∃ a b, m = a ++ (pyStrip m ++ b) ∧
    (∀ c ∈ a, isPyWS c = true) ∧ (∀ c ∈ b, isPyWS c = true) := by
  refine ⟨m.takeWhile isPyWS,
    ((m.dropWhile isPyWS).reverse.takeWhile isPyWS).reverse, ?_, ?_, ?_⟩
  · conv_lhs => rw [← List.takeWhile_append_dropWhile isPyWS m, pyStrip_split m]
  · exact fun c hc => mem_takeWhile_ws m c hc
  · intro c hc
    rw [List.mem_reverse] at hc
    exact mem_takeWhile_ws _ c hc

theorem dropWhile_eq_self_of_head {q : Char → Bool} {l : List Char}
    (h : ∀ e, l.head? = some e → q e = false) : l.dropWhile q = l := by
  cases l with
  | nil => rfl
  | cons c t => exact List.dropWhile_cons_of_neg (by simp [h c rfl])

theorem getLastD_ws_ne_star : ∀ (a : List Char) (d : Char), d ≠ '*' →
    (∀ c ∈ a, isPyWS c = true) → a.getLastD d ≠ '*' := by
  intro a
  induction a with
  | nil => intro d hd _; exact hd
  | cons c t ih =>
    intro d hd hws
    rw [List.getLastD_cons]
    exact ih c (ws_not_star c (hws c (List.mem_cons_self c t)))
      (fun e he => hws e (List.mem_cons_of_mem c he))

theorem pyStrip_M1 {m : List Char} (h : HasM1 (pyStrip m)) : HasM1 m := by
  obtain ⟨a, b, hm, -, -⟩ := pyStrip_decomp m
  rw [hm]
  exact HasM1_append_left a (HasM1_append_right b h)

theorem pyStrip_M2 {m : List Char} (h : HasM2 nulChar (pyStrip m)) :
    HasM2 nulChar m := by
  obtain ⟨a, b, hm, hwa, hwb⟩ := pyStrip_decomp m
  rw [hm]
  have hb : '*' ∉ b := fun hmem => ws_not_star '*' (hwb '*' hmem) rfl
  have ha : '*' ∉ a := fun hmem => ws_not_star '*' (hwa '*' hmem) rfl
  have h2 : HasM2 nulChar (pyStrip m ++ b) := HasM2_append_right b hb h
  refine HasM2_unskip a ha ?_
  exact HasM2_prev (getLastD_ws_ne_star a nulChar (by decide) hwa) h2

theorem pyStrip_infixRun {d : Char} {K : Nat} {m : List Char}
    (h : InfixRun d K (pyStrip m)) : InfixRun d K m := by
  obtain ⟨a, b, hm, -, -⟩ := pyStrip_decomp m
  rw [hm]
  exact InfixRun_append_right a (InfixRun_append_left b h)

theorem pyStrip_head {m : List Char} {e : Char} (h : (pyStrip m).head? = some e) :
    isPyWS e = false := by
  have hh : (m.dropWhile isPyWS).head? = some e := by
    rw [pyStrip_split m]
    cases hz : pyStrip m with
    | nil => rw [hz] at h; simp at h
    | cons z0 zt =>
      rw [hz] at h
      rw [List.cons_append, List.head?_cons]
      rw [List.head?_cons] at h
      exact h
  exact dropWhile_head_not isPyWS m hh

theorem pyStrip_last {m : List Char} {e : Char}
    (h : (pyStrip m).reverse.head? = some e) : isPyWS e = false := by
  have h3 : (pyStrip m).reverse =
      (m.dropWhile isPyWS).reverse.dropWhile isPyWS := List.reverse_reverse _
  rw [h3] at h
  exact dropWhile_head_not isPyWS _ h

theorem pyStrip_eq_self {z : List Char}
    (hh : ∀ e, z.head? = some e → isPyWS e = false)
    (hl : ∀ e, z.reverse.head? = some e → isPyWS e = false) :
    pyStrip z = z := by
  show ((z.dropWhile isPyWS).reverse.dropWhile isPyWS).reverse = z
  rw [dropWhile_eq_self_of_head hh, dropWhile_eq_self_of_head hl]
  exact List.reverse_reverse z

theorem pyStrip_idem (m : List Char) : pyStrip (pyStrip m) = pyStrip m :=
  pyStrip_eq_self (fun _ he => pyStrip_head he) (fun _ he => pyStrip_last he)

/- #### Idempotence of the whole normalization pipeline -/

theorem formatResponseList_idem (l : List Char) :
    formatResponseList (formatResponseList l) = formatResponseList l := by
  have hw1 : ¬ HasM1 (sub1 l) := sub1_no_match l
  have hw2 : ¬ HasM2 nulChar (sub2 nulChar (sub1 l)) :=
    sub2_no_match (sub1 l) nulChar
  have hb3 : ¬ InfixRun '\n' 3 (collapse '\n' 2 (sub2 nulChar (sub1 l))) :=
    collapse_bound '\n' 2 (by omega) _
  have hb4s : ¬ InfixRun ' ' 2
      (collapse ' ' 1 (collapse '\n' 2 (sub2 nulChar (sub1 l)))) :=
    collapse_bound ' ' 1 (by omega) _
  have hb4n : ¬ InfixRun '\n' 3
      (collapse ' ' 1 (collapse '\n' 2 (sub2 nulChar (sub1 l)))) :=
    collapse_preserves ' ' 1 (by omega) (by decide) (by omega) _ hb3
  have hz1 : ¬ HasM1 (formatResponseList l) := by
    intro h
    exact hw1 (sub2_M1_inv _ nulChar (collapse_M1_inv '\n' 2 (by decide) (by omega) _
      (collapse_M1_inv ' ' 1 (by decide) (by omega) _ (pyStrip_M1 h))))
  have hz2 : ¬ HasM2 nulChar (formatResponseList l) := by
    intro h
    exact hw2 (collapse_M2_inv '\n' 2 (by decide) (by omega) _ nulChar
      (collapse_M2_inv ' ' 1 (by decide) (by omega) _ nulChar (pyStrip_M2 h)))
  have hz3 : ¬ InfixRun '\n' 3 (formatResponseList l) :=
    fun h => hb4n (pyStrip_infixRun h)
  have hz4 : ¬ InfixRun ' ' 2 (formatResponseList l) :=
    fun h => hb4s (pyStrip_infixRun h)
  show pyStrip (collapse ' ' 1 (collapse '\n' 2
    (sub2 nulChar (sub1 (formatResponseList l))))) = formatResponseList l
  rw [sub1_id_of_no_match _ hz1, sub2_id_of_no_match _ nulChar hz2,
    collapse_id '\n' 2 _ hz3, collapse_id ' ' 1 _ hz4]
  exact pyStrip_idem _

/-- C6: the response-normalization function `_format_response` (strip the
`**`/`*` emphasis markup, collapse runs of three or more newlines to two,
collapse runs of two or more spaces to one, then `strip()`) is idempotent:
for every string `x`, `normalize(normalize(x)) = normalize(x)`. -/
theorem claim_C6 (s : String) :
    formatResponse (formatResponse s) = formatResponse s := by
  have h := formatResponseList_idem s.toList
  show String.mk (formatResponseList (formatResponseList s.toList)) =
    String.mk (formatResponseList s.toList)
  rw [h]

end MedAgent
